import Mathlib

/-!
# Verification of the structural JSON reconciliation engine of terraform-provider-msgraph

The Go code (internal/utils, file with `MergeObject` / `UpdateObject` /
`DiffObject`) operates on dynamically typed JSON values (`interface{}`
after `json.Unmarshal`): `nil`, `bool`, `float64`, `string`,
`[]interface{}`, `map[string]interface{}`.  We model these with the
inductive type `GoValue`.  `GoValue.vnull` models the nil interface,
which in Go doubles as JSON null and as the "no change / empty patch"
marker returned by `DiffObject`.

Go maps are modelled as association lists (`List (String × GoValue)`).
A Go map has unique keys and unspecified iteration order; the model fixes
one entry order, and the properties proved below are stated through the
order-insensitive observers `mapGet` / `mapMemB` / `deepEqual`, which are
exactly what is observable of a Go map.  Go numbers (always `float64` on
unmarshalled data) are modelled as rationals, which agree with float
comparison semantics on all values appearing in the claims.
`strings.EqualFold` is modelled as equality of lowercased strings
(simple Unicode folding agrees with this on the ASCII data involved).
-/

inductive GoValue : Type where
  | vnull : GoValue
  | vbool : Bool → GoValue
  | vnum  : Rat → GoValue
  | vstr  : String → GoValue
  | varr  : List GoValue → GoValue
  | vobj  : List (String × GoValue) → GoValue
deriving Repr

abbrev GoFields := List (String × GoValue)

/-- Go map read `m[k]`: the stored value, or the nil interface when the key
is missing (Go's zero value for `interface{}`). -/
def mapGet (m : GoFields) (k : String) : GoValue :=
  match m.find? (fun kv => kv.1 = k) with
  | some kv => kv.2
  | none => .vnull

/-- Go comma-ok map read `_, ok := m[k]`: key presence (true even when the
stored value is the nil interface). -/
def mapMemB (m : GoFields) (k : String) : Bool :=
  m.any (fun kv => kv.1 = k)

/-- Go map write `m[k] = v`: replaces the binding of `k` if present,
otherwise creates it. -/
def mapSet (m : GoFields) (k : String) (v : GoValue) : GoFields :=
  match m with
  | [] => [(k, v)]
  | kv :: rest => if kv.1 = k then (k, v) :: rest else kv :: mapSet rest k v

/-- Go `x == nil` on an `interface{}` holding an unmarshalled JSON value. -/
def isNilB : GoValue → Bool
  | .vnull => true
  | _ => false

mutual
/-- `reflect.DeepEqual` on unmarshalled JSON values: structural equality,
order-sensitive for slices, order-insensitive (key set + pointwise values)
for maps. -/
def deepEqual : GoValue → GoValue → Bool
  | .vnull, .vnull => true
  | .vbool a, .vbool b => a == b
  | .vnum a, .vnum b => a == b
  | .vstr a, .vstr b => a == b
  | .varr a, .varr b => deepEqualList a b
  | .vobj a, .vobj b => a.length == b.length && deepEqualFields a b
  | _, _ => false

def deepEqualList : List GoValue → List GoValue → Bool
  | [], [] => true
  | x :: xs, y :: ys => deepEqual x y && deepEqualList xs ys
  | _, _ => false

def deepEqualFields : GoFields → GoFields → Bool
  | [], _ => true
  | (k, v) :: rest, b => (mapMemB b k && deepEqual v (mapGet b k)) && deepEqualFields rest b
end

/-! ## MergeObject (source: `MergeObject`, utils) -/

/-- Second pass of `MergeObject`'s map case: `for key, newValue := range
newMap { if res[key] == nil { res[key] = newValue } }`. -/
def mergeSecondPass (res : GoFields) (n : GoFields) : GoFields :=
  match n with
  | [] => res
  | (k, v) :: rest =>
      mergeSecondPass (if isNilB (mapGet res k) then mapSet res k v else res) rest
termination_by structural n

mutual
/-- `MergeObject` is used to merge object old and new, if overlaps, use new
value.  Direct translation of the Go function: nil new wins; map × map does
a keep-old/recurse pass then adds new-only keys; equal-length array × array
merges element-wise, unequal lengths replace wholesale; anything else
returns new. -/
def MergeObject : GoValue → GoValue → GoValue
  | _, .vnull => .vnull
  | .vobj oldFields, .vobj newFields =>
      .vobj (mergeSecondPass (mergeFirstPass oldFields newFields) newFields)
  | .varr oldArr, .varr newArr =>
      if oldArr.length = newArr.length then .varr (mergeElems oldArr newArr)
      else .varr newArr
  | _, n => n

/-- First pass of `MergeObject`'s map case: every key of old is kept; keys
also in new are merged recursively. -/
def mergeFirstPass : GoFields → GoFields → GoFields
  | [], _ => []
  | (k, v) :: rest, newFields =>
      (k, if mapMemB newFields k then MergeObject v (mapGet newFields k) else v)
        :: mergeFirstPass rest newFields

/-- Element-wise merge of two arrays of equal length. -/
def mergeElems : List GoValue → List GoValue → List GoValue
  | [], _ => []
  | _ :: _, [] => []
  | o :: os, n :: ns => MergeObject o n :: mergeElems os ns
end

/-! ## UpdateObject (source: `UpdateObject`, `areSameArrayItems`,
`identifierOfArrayItem`, `isZeroValue`, utils) -/

/-- `UpdateJsonOption` (three independent flags). -/
structure UpdateJsonOption where
  IgnoreCasing : Bool
  IgnoreMissingProperty : Bool
  IgnoreNullProperty : Bool
deriving Repr, DecidableEq

/-- `isZeroValue`: nil, empty map/array/string, numeric zero, false. -/
def isZeroValue : GoValue → Bool
  | .vnull => true
  | .vobj fs => fs.isEmpty
  | .varr xs => xs.isEmpty
  | .vstr s => s.isEmpty
  | .vnum q => q == 0
  | .vbool b => !b

/-- `identifierOfArrayItem`: the string value of an object's `name` key,
or `""` when the element is not an object, has no `name`, or `name` is not
a string (a stored empty string also yields `""`). -/
def identifierOfArrayItem : GoValue → String
  | .vobj fs =>
      match mapGet fs "name" with
      | .vstr s => s
      | _ => ""
  | _ => ""

/-- `areSameArrayItems`: identifier equality, never matching when either
side has no identifier. -/
def areSameArrayItems (a b : GoValue) : Bool :=
  let aId := identifierOfArrayItem a
  let bId := identifierOfArrayItem b
  if aId = "" || bId = "" then false else aId == bId

/-- Model of `strings.EqualFold` (case-insensitive equality). -/
def equalFold (a b : String) : Bool := a.toLower == b.toLower

/-- The redaction test shared by `UpdateObject` and `DiffObject`:
`regexp.MustCompile("^\\*+$").MatchString(s) || s == "<redacted>" || s == ""`. -/
def isRedactedOrEmpty (s : String) : Bool :=
  (s.length > 0 && s.toList.all (fun c => c = '*')) || s == "<redacted>" || s == ""

/-- First index `i` of an element of the array satisfying `p` with
`used[i] = false` (the inner matching loops of `UpdateObject`). -/
def firstUnusedMatch (p : GoValue → Bool) : List GoValue → List Bool → Option Nat
  | [], _ => none
  | n :: ns, u :: us =>
      if p n && !u then some 0 else (firstUnusedMatch p ns us).map Nat.succ
  | n :: ns, [] =>
      if p n then some 0 else (firstUnusedMatch p ns []).map Nat.succ

/-- The two matching passes for one old element: exact deep-equality match
first, then identifier match, both against unused new elements. -/
def pickMatchIdx (o : GoValue) (newArr : List GoValue) (used : List Bool) : Option Nat :=
  match firstUnusedMatch (fun n => deepEqual o n) newArr used with
  | some i => some i
  | none => firstUnusedMatch (fun n => areSameArrayItems o n) newArr used

/-- `used[index] = true`. -/
def setUsed : List Bool → Nat → List Bool
  | [], _ => []
  | _ :: us, 0 => true :: us
  | u :: us, i + 1 => u :: setUsed us i

/-- Final pass of the identifier-matching array case: append the new
elements never marked used, in order. -/
def appendUnused : List GoValue → List Bool → List GoValue
  | [], _ => []
  | n :: ns, [] => n :: appendUnused ns []
  | n :: ns, u :: us => if u then appendUnused ns us else n :: appendUnused ns us

mutual
/-- `UpdateObject` is used to get an updated object which has same schema as
old, but with new value.  Direct translation of the Go function. -/
def UpdateObject (old new : GoValue) (option : UpdateJsonOption) : GoValue :=
  if deepEqual old new then old
  else
    match old, new with
    | .vobj oldFields, .vobj newFields => .vobj (updateFields oldFields newFields option)
    | .varr oldArr, .varr newArr =>
        match oldArr with
        | [] => .varr newArr
        | o :: _ =>
            if identifierOfArrayItem o = "" then
              if oldArr.length ≠ newArr.length then .varr newArr
              else .varr (updatePositional oldArr newArr option)
            else
              let p := updateMatchLoop oldArr newArr (List.replicate newArr.length false) option
              .varr (p.1 ++ appendUnused newArr p.2)
    | .vstr oldS, .vstr newS =>
        if option.IgnoreCasing && equalFold oldS newS then .vstr oldS
        else if option.IgnoreMissingProperty && isRedactedOrEmpty newS then .vstr oldS
        else .vstr newS
    | _, n => n
termination_by structural old

/-- The map case of `UpdateObject`: for each key of old, keep null under
IgnoreNullProperty, recurse when new has a non-nil value, keep the old value
under IgnoreMissingProperty or when it is a zero value, else drop the key. -/
def updateFields (oldFields newFields : GoFields) (option : UpdateJsonOption) : GoFields :=
  match oldFields with
  | [] => []
  | (key, value) :: rest =>
      if isNilB value && option.IgnoreNullProperty then
        (key, .vnull) :: updateFields rest newFields option
      else if !isNilB (mapGet newFields key) then
        (key, UpdateObject value (mapGet newFields key) option) :: updateFields rest newFields option
      else if option.IgnoreMissingProperty || isZeroValue value then
        (key, value) :: updateFields rest newFields option
      else
        updateFields rest newFields option
termination_by structural oldFields

/-- Position-wise array recursion (the no-identifier case, lengths equal). -/
def updatePositional (oldArr newArr : List GoValue) (option : UpdateJsonOption) :
    List GoValue :=
  match oldArr, newArr with
  | [], _ => []
  | _ :: _, [] => []
  | o :: os, n :: ns => UpdateObject o n option :: updatePositional os ns option
termination_by structural oldArr

/-- The identifier-matching loop over old elements, threading the `used`
flags of the new elements; unmatched old elements are dropped. -/
def updateMatchLoop (oldArr newArr : List GoValue) (used : List Bool)
    (option : UpdateJsonOption) : List GoValue × List Bool :=
  match oldArr with
  | [] => ([], used)
  | o :: os =>
      match pickMatchIdx o newArr used with
      | some i =>
          let r := UpdateObject o (newArr.getD i .vnull) option
          let rest := updateMatchLoop os newArr (setUsed used i) option
          (r :: rest.1, rest.2)
      | none => updateMatchLoop os newArr used option
termination_by structural oldArr
end

/-! ## DiffObject (source: `DiffObject`, `IsEmptyObject`, utils) -/

/-- `IsEmptyObject` returns true if the input should be considered an empty
patch: the nil interface, an empty map, or an empty slice. -/
def IsEmptyObject : GoValue → Bool
  | .vnull => true
  | .vobj fs => fs.isEmpty
  | .varr xs => xs.isEmpty
  | _ => false

/-- `strings.HasPrefix(key, "@odata.")`, the discriminator-key test,
computed on the character lists (equivalent to `String.startsWith`, which
Lean cannot reduce on open strings). -/
def hasODataPrefix (key : String) : Bool :=
  "@odata.".toList.isPrefixOf key.toList

/-- The `@odata.*` propagation pass of `DiffObject`: for every key of the
new map with the discriminator prefix whose slot in the result is still nil
(absent or nil-valued), store the new value verbatim. -/
def odataPass (res : GoFields) (n : GoFields) : GoFields :=
  match n with
  | [] => res
  | (key, newVal) :: rest =>
      odataPass
        (if hasODataPrefix key && isNilB (mapGet res key) then mapSet res key newVal
         else res) rest
termination_by structural n

mutual
/-- `DiffObject` computes a minimal patch that transforms old -> new:
nil when there are no changes, a map with only changed fields for objects
(plus the `@odata.*` propagation pass when non-empty), the full new array
for arrays that differ, the new value otherwise.  String comparisons honour
IgnoreCasing / IgnoreMissingProperty suppression.  Direct translation of
the Go function. -/
def DiffObject (old new : GoValue) (option : UpdateJsonOption) : GoValue :=
  if deepEqual old new then .vnull
  else
    match old, new with
    | .vobj oldFields, .vobj newFields =>
        let res := diffFields oldFields newFields option
        if res.isEmpty then .vnull else .vobj (odataPass res newFields)
    | .varr oldArr, .varr newArr =>
        if deepEqualList oldArr newArr then .vnull else .varr newArr
    | .vstr oldS, .vstr newS =>
        if option.IgnoreCasing && equalFold oldS newS then .vnull
        else if option.IgnoreMissingProperty && isRedactedOrEmpty newS then .vnull
        else .vstr newS
    | _, n => n

/-- The first pass of `DiffObject`'s map case: keys of new absent from old
are included verbatim (creates); keys present in both contribute their
recursive diff when it is non-empty. -/
def diffFields : GoFields → GoFields → UpdateJsonOption → GoFields
  | _, [], _ => []
  | oldFields, (key, newVal) :: rest, option =>
      if mapMemB oldFields key then
        let d := DiffObject (mapGet oldFields key) newVal option
        if IsEmptyObject d then diffFields oldFields rest option
        else (key, d) :: diffFields oldFields rest option
      else (key, newVal) :: diffFields oldFields rest option
end

/-! ## Delete orchestration (source: `MSGraphResource.Delete`,
internal/services/msgraph_resource.go, and `ResponseErrorWasNotFound`,
internal/utils/response.go) -/

/-- A Go error as classifiable by `errors.As(err, &responseErr)` with
`*azcore.ResponseError`: either the chain carries a ResponseError (with its
HTTP status code and service error code), or it does not. -/
inductive GoError : Type where
  | responseError (statusCode : Nat) (errorCode : String)
  | plain (msg : String)
deriving Repr, DecidableEq

/-- `ResponseErrorWasNotFound`: true when the error carries a ResponseError
with HTTP status 404, or with error code "ResourceNotFound" (services may
return it with HTTP 400). -/
def ResponseErrorWasNotFound : GoError → Bool
  | .responseError statusCode errorCode =>
      statusCode == 404 || errorCode == "ResourceNotFound"
  | .plain _ => false

/-- Outcome of one `Delete` run as observable through its diagnostics. -/
inductive DeleteOutcome : Type where
  | failedDelete (e : GoError)
  | failedWaiting (e : GoError)
  | success
deriving Repr, DecidableEq

/-- Error flow of `MSGraphResource.Delete` (msgraph_resource.go): the
outcomes of the client delete call and of the subsequent
`consistency.WaitForDeletion` are parameters (network calls of the external
transport collaborator, which surfaces its errors to this code).  The
source adds the "Failed to delete resource" diagnostic and returns for
every non-nil error of the delete call; there is no error-class inspection
at that call site. -/
def msgraphResourceDelete (deleteErr : Option GoError) (waitErr : Option GoError) :
    DeleteOutcome :=
  match deleteErr with
  | some e => .failedDelete e
  | none =>
      match waitErr with
      | some e => .failedWaiting e
      | none => .success

/-- The item-read branch of `ResourceExistenceFunc` (msgraph_resource.go):
maps the outcome of the polled read to an existence answer; a not-found
error is a valid negative (absence), any other error is propagated. -/
def resourceExistenceFromRead (readErr : Option GoError) : Except GoError Bool :=
  match readErr with
  | some e => if ResponseErrorWasNotFound e then .ok false else .error e
  | none => .ok true

/-! ## Observers and predicates used to state the claims -/

/-- Whether a value is a JSON object (a Go `map[string]interface{}`). -/
def isObjB : GoValue → Bool
  | .vobj _ => true
  | _ => false

/-- Whether a value is a JSON array. -/
def isArrB : GoValue → Bool
  | .varr _ => true
  | _ => false

/-- Whether a value is a string. -/
def isStrB : GoValue → Bool
  | .vstr _ => true
  | _ => false

/-- The key list of an object value (empty for non-objects). -/
def objKeys : GoValue → List String
  | .vobj fs => fs.map Prod.fst
  | _ => []

/-- A step of a JSON path: an object key or an array index. -/
inductive PathStep : Type where
  | key (k : String)
  | idx (i : Nat)
deriving Repr, DecidableEq

/-- Looking a path up in a structural value; `none` when the path does not
exist in the value. -/
def lookupPath : GoValue → List PathStep → Option GoValue
  | v, [] => some v
  | .vobj fs, .key k :: p => if mapMemB fs k then lookupPath (mapGet fs k) p else none
  | .varr xs, .idx i :: p =>
      match xs.get? i with
      | some x => lookupPath x p
      | none => none
  | _, _ :: _ => none

/-- A leaf: any value that is not an object and not an array. -/
def isLeafB : GoValue → Bool
  | .vobj _ => false
  | .varr _ => false
  | _ => true

/-- Duplicate-freedom of a key list, as a computable Bool. -/
def keysNodupB : List String → Bool
  | [] => true
  | k :: ks => !ks.any (fun k2 => k2 = k) && keysNodupB ks

mutual
/-- Well-formedness of a modelled Go value: object key lists are
duplicate-free at every level (guaranteed for every value produced by
`json.Unmarshal`, since Go maps cannot hold a key twice). -/
def wfGo : GoValue → Bool
  | .vnull => true
  | .vbool _ => true
  | .vnum _ => true
  | .vstr _ => true
  | .varr xs => wfGoList xs
  | .vobj fs => keysNodupB (fs.map Prod.fst) && wfGoFields fs

def wfGoList : List GoValue → Bool
  | [] => true
  | x :: xs => wfGo x && wfGoList xs

def wfGoFields : GoFields → Bool
  | [] => true
  | (_, v) :: rest => wfGo v && wfGoFields rest
end

mutual
/-- The taxonomy of structural differences that `DiffObject` leaves out of
the patch, stated independently of the patch construction: a difference is
unreported precisely when, at every point of disagreement, either the two
sides are deeply equal, or the difference sits behind a key of old absent
from new (the patch is additive-only: only new's keys are scanned), or it
is a string-leaf difference suppressed by IgnoreCasing /
IgnoreMissingProperty, or the new side is an empty array (array patches are
all-or-nothing and an empty replacement array is an empty patch), or — for
every remaining shape combination — the new side is nil or an empty
object/array. -/
def exceptedOnly (option : UpdateJsonOption) (old new : GoValue) : Bool :=
  deepEqual old new ||
    match old, new with
    | .vobj p, .vobj n => exceptedFields option p n
    | .varr _, .varr n => n.isEmpty
    | .vstr s, .vstr t =>
        (option.IgnoreCasing && equalFold s t) ||
        (option.IgnoreMissingProperty && isRedactedOrEmpty t)
    | _, n2 => IsEmptyObject n2
termination_by structural new

/-- Object part of `exceptedOnly`: every entry of new must be matched in
old and recursively excepted (entries of old with no counterpart in new
are never reported). -/
def exceptedFields (option : UpdateJsonOption) (p : GoFields) (n : GoFields) : Bool :=
  match n with
  | [] => true
  | (k, v) :: rest =>
      (mapMemB p k && exceptedOnly option (mapGet p k) v) && exceptedFields option p rest
termination_by structural n
end

/-- Whether a value is an object without a `name` key (an array headed by
such an element can never enter identifier matching, in this or any
subsequent reconciliation round). -/
def noNameKey : GoValue → Bool
  | .vobj fs => !mapMemB fs "name"
  | _ => false

mutual
/-- Identifier-freedom: every non-empty array (at any depth) has as its
first element an object without a `name` key, so `UpdateObject` always
takes the positional (or wholesale) array path, never identifier matching
— and, because an updated first element keeps a subset of its keys, the
same holds for the result of an update. -/
def idFree : GoValue → Bool
  | .vnull => true
  | .vbool _ => true
  | .vnum _ => true
  | .vstr _ => true
  | .vobj fs => idFreeFields fs
  | .varr xs =>
      match xs with
      | [] => true
      | o :: _ => noNameKey o && idFreeList xs

def idFreeList : List GoValue → Bool
  | [] => true
  | x :: xs => idFree x && idFreeList xs

def idFreeFields : GoFields → Bool
  | [] => true
  | (_, v) :: rest => idFree v && idFreeFields rest
end

/-! ## Basic lemmas about the map model -/

theorem mapGet_cons (kv : String × GoValue) (m : GoFields) (k : String) :
    mapGet (kv :: m) k = if kv.1 = k then kv.2 else mapGet m k := by
  simp only [mapGet, List.find?_cons, decide_eq_true_eq]
  by_cases h : kv.1 = k <;> simp [h]

theorem mapMemB_cons (kv : String × GoValue) (m : GoFields) (k : String) :
    mapMemB (kv :: m) k = (kv.1 = k || mapMemB m k) := by
  simp [mapMemB, List.any_cons]

theorem mapMemB_of_mem {m : GoFields} {kv : String × GoValue} (h : kv ∈ m) :
    mapMemB m kv.1 = true := by
  simp only [mapMemB, List.any_eq_true, decide_eq_true_eq]
  exact ⟨kv, h, rfl⟩

theorem mapGet_eq_of_not_mem {m : GoFields} {k : String} (h : mapMemB m k = false) :
    mapGet m k = .vnull := by
  induction m with
  | nil => rfl
  | cons kv rest ih =>
      rw [mapMemB_cons] at h
      simp only [Bool.or_eq_false_iff, decide_eq_false_iff_not] at h
      rw [mapGet_cons, if_neg h.1]
      exact ih h.2

theorem mapMemB_of_mapGet_ne {m : GoFields} {k : String} (h : mapGet m k ≠ .vnull) :
    mapMemB m k = true := by
  by_contra hmem
  exact h (mapGet_eq_of_not_mem (by simpa using hmem))

theorem keysNodupB_cons {k : String} {ks : List String}
    (h : keysNodupB (k :: ks) = true) :
    (∀ k2 ∈ ks, k2 ≠ k) ∧ keysNodupB ks = true := by
  simp only [keysNodupB, Bool.and_eq_true, Bool.not_eq_true', List.any_eq_false,
    decide_eq_false_iff_not, decide_eq_true_eq] at h
  exact ⟨fun k2 hk2 => h.1 k2 hk2, h.2⟩

theorem mapGet_of_mem_nodup {m : GoFields} {kv : String × GoValue}
    (hn : keysNodupB (m.map Prod.fst) = true) (h : kv ∈ m) : mapGet m kv.1 = kv.2 := by
  induction m with
  | nil => cases h
  | cons kv' rest ih =>
      rw [List.map_cons] at hn
      obtain ⟨hne, hn2⟩ := keysNodupB_cons hn
      rcases List.mem_cons.mp h with h1 | h1
      · subst h1
        simp [mapGet_cons]
      · rw [mapGet_cons]
        have : kv'.1 ≠ kv.1 := fun he =>
          hne kv.1 (List.mem_map.mpr ⟨kv, h1, rfl⟩) he.symm
        rw [if_neg this]
        exact ih hn2 h1

theorem mapGet_mapSet_self (m : GoFields) (k : String) (v : GoValue) :
    mapGet (mapSet m k v) k = v := by
  induction m with
  | nil => simp [mapSet, mapGet_cons]
  | cons kv rest ih =>
      by_cases h : kv.1 = k
      · simp [mapSet, h, mapGet_cons]
      · simp [mapSet, h, mapGet_cons, ih]

theorem mapGet_mapSet_ne (m : GoFields) {k k' : String} (v : GoValue) (h : k ≠ k') :
    mapGet (mapSet m k v) k' = mapGet m k' := by
  induction m with
  | nil => simp [mapSet, mapGet_cons, h, mapGet]
  | cons kv rest ih =>
      by_cases hk : kv.1 = k
      · rw [mapSet, if_pos hk, mapGet_cons, mapGet_cons]
        simp only [hk]
        rw [if_neg h, if_neg (hk ▸ h)]
      · rw [mapSet, if_neg hk, mapGet_cons, mapGet_cons, ih]

theorem mapMemB_mapSet (m : GoFields) (k k' : String) (v : GoValue) :
    mapMemB (mapSet m k v) k' = (k = k' || mapMemB m k') := by
  induction m with
  | nil => simp [mapSet, mapMemB_cons, mapMemB]
  | cons kv rest ih =>
      by_cases hk : kv.1 = k
      · rw [mapSet, if_pos hk, mapMemB_cons, mapMemB_cons]
        simp only [hk]
        by_cases h1 : k = k' <;> simp [h1]
      · rw [mapSet, if_neg hk, mapMemB_cons, mapMemB_cons, ih]
        by_cases h1 : k = k' <;> by_cases h2 : kv.1 = k' <;> simp [h1, h2]

/-! ## Basic lemmas about deepEqual -/

theorem deepEqualList_length {a b : List GoValue} (h : deepEqualList a b = true) :
    a.length = b.length := by
  induction a generalizing b with
  | nil => cases b with
    | nil => rfl
    | cons y ys => simp [deepEqualList] at h
  | cons x xs ih =>
      cases b with
      | nil => simp [deepEqualList] at h
      | cons y ys =>
          simp only [deepEqualList, Bool.and_eq_true] at h
          simp [ih h.2]

/-- A helper to establish `deepEqualFields` from a pointwise property. -/
theorem deepEqualFields_of_forall {a b : GoFields}
    (h : ∀ kv ∈ a, mapMemB b kv.1 = true ∧ deepEqual kv.2 (mapGet b kv.1) = true) :
    deepEqualFields a b = true := by
  induction a with
  | nil => rfl
  | cons kv rest ih =>
      obtain ⟨k, v⟩ := kv
      obtain ⟨h1, h2⟩ := h (k, v) (List.mem_cons_self _ rest)
      simp only [deepEqualFields, Bool.and_eq_true]
      exact ⟨⟨h1, h2⟩, ih (fun kv' h' => h kv' (List.mem_cons_of_mem _ h'))⟩

mutual
/-- `reflect.DeepEqual` is reflexive on well-formed values. -/
theorem deepEqual_refl : ∀ x : GoValue, wfGo x = true → deepEqual x x = true
  | .vnull, _ => rfl
  | .vbool b, _ => by simp [deepEqual]
  | .vnum q, _ => by simp [deepEqual]
  | .vstr s, _ => by simp [deepEqual]
  | .varr xs, h => by
      simp only [deepEqual]
      exact deepEqualList_refl xs (by simpa [wfGo] using h)
  | .vobj fs, h => by
      simp only [wfGo, Bool.and_eq_true] at h
      simp only [deepEqual, Bool.and_eq_true, beq_self_eq_true, true_and]
      exact deepEqualFields_of_forall (fun kv hm =>
        ⟨mapMemB_of_mem hm, by
          rw [mapGet_of_mem_nodup h.1 hm]
          exact deepEqualVals_refl fs h.2 kv hm⟩)
termination_by structural x => x

theorem deepEqualList_refl : ∀ xs : List GoValue, wfGoList xs = true →
    deepEqualList xs xs = true
  | [], _ => rfl
  | x :: xs, h => by
      simp only [wfGoList, Bool.and_eq_true] at h
      simp only [deepEqualList, Bool.and_eq_true]
      exact ⟨deepEqual_refl x h.1, deepEqualList_refl xs h.2⟩
termination_by structural xs => xs

theorem deepEqualVals_refl : ∀ fs : GoFields, wfGoFields fs = true →
    ∀ kv ∈ fs, deepEqual kv.2 kv.2 = true
  | (k0, v0) :: rest, h, kv, hm => by
      simp only [wfGoFields, Bool.and_eq_true] at h
      rcases List.mem_cons.mp hm with h1 | h1
      · subst h1
        exact deepEqual_refl v0 h.1
      · exact deepEqualVals_refl rest h.2 kv h1
termination_by structural fs => fs
end

/-! Sanity checks of the model on the spec's own examples. -/

set_option maxRecDepth 2000

example :
    DiffObject (.vobj [("a", .vnum 1), ("@odata.type", .vstr "T")])
      (.vobj [("a", .vnum 2), ("@odata.type", .vstr "T")]) ⟨false, false, false⟩ =
      .vobj [("a", .vnum 2), ("@odata.type", .vstr "T")] := by with_unfolding_all rfl

example :
    DiffObject (.vobj [("a", .vnum 1), ("@odata.type", .vstr "T")])
      (.vobj [("a", .vnum 1), ("@odata.type", .vstr "T")]) ⟨false, false, false⟩ =
      .vnull := by with_unfolding_all rfl

example :
    UpdateObject (.vstr "secret123") (.vstr "<redacted>") ⟨false, true, false⟩ =
      .vstr "secret123" := by with_unfolding_all rfl

example :
    UpdateObject (.vstr "secret123") (.vstr "<redacted>") ⟨false, false, false⟩ =
      .vstr "<redacted>" := by with_unfolding_all rfl

example :
    UpdateObject
      (.varr [.vobj [("name", .vstr "x"), ("v", .vnum 1)],
              .vobj [("name", .vstr "y"), ("v", .vnum 2)]])
      (.varr [.vobj [("name", .vstr "y"), ("v", .vnum 2)],
              .vobj [("name", .vstr "x"), ("v", .vnum 9)]]) ⟨false, false, false⟩ =
      .varr [.vobj [("name", .vstr "x"), ("v", .vnum 9)],
             .vobj [("name", .vstr "y"), ("v", .vnum 2)]] := by with_unfolding_all rfl

/-! ## Supporting lemmas for the claims -/

theorem deepEqual_varr_length {a b : List GoValue}
    (h : deepEqual (.varr a) (.varr b) = true) : a.length = b.length :=
  deepEqualList_length (by simpa [deepEqual] using h)

theorem updatePositional_eq_zipWith (os ns : List GoValue) (option : UpdateJsonOption) :
    updatePositional os ns option =
      List.zipWith (fun a b => UpdateObject a b option) os ns := by
  induction os generalizing ns with
  | nil => cases ns <;> simp [updatePositional]
  | cons o os ih => cases ns <;> simp [updatePositional, ih]

theorem updateFields_keys_sub {fs n : GoFields} {option : UpdateJsonOption} {k : String}
    (h : k ∈ (updateFields fs n option).map Prod.fst) : k ∈ fs.map Prod.fst := by
  induction fs with
  | nil => simp [updateFields] at h
  | cons kv rest ih =>
      obtain ⟨key, value⟩ := kv
      rw [updateFields] at h
      split at h
      · rw [List.map_cons] at h
        rcases List.mem_cons.mp h with h1 | h1
        · simp [h1]
        · exact List.mem_cons_of_mem _ (ih h1)
      · split at h
        · rw [List.map_cons] at h
          rcases List.mem_cons.mp h with h1 | h1
          · simp [h1]
          · exact List.mem_cons_of_mem _ (ih h1)
        · split at h
          · rw [List.map_cons] at h
            rcases List.mem_cons.mp h with h1 | h1
            · simp [h1]
            · exact List.mem_cons_of_mem _ (ih h1)
          · exact List.mem_cons_of_mem _ (ih h)

/-! ## The claims -/

/-- **C4** (confirmed).  Array identity matching: with old
`[{name:"x",v:1},{name:"y",v:2}]` and new `[{name:"y",v:2},{name:"x",v:9}]`,
`UpdateObject` matches each old element in old's order, first by deep
equality against an unused new element, then by identifier, drops unmatched
old elements and appends unused new elements; here it returns
`[{name:"x",v:9},{name:"y",v:2}]` (old ordering, identifier-based
correspondence, not positional), under every policy. -/
theorem claim_C4_array_identity_matching :
    ∀ option : UpdateJsonOption,
      UpdateObject
        (.varr [.vobj [("name", .vstr "x"), ("v", .vnum 1)],
                .vobj [("name", .vstr "y"), ("v", .vnum 2)]])
        (.varr [.vobj [("name", .vstr "y"), ("v", .vnum 2)],
                .vobj [("name", .vstr "x"), ("v", .vnum 9)]]) option =
        .varr [.vobj [("name", .vstr "x"), ("v", .vnum 9)],
               .vobj [("name", .vstr "y"), ("v", .vnum 2)]] := by
  intro option
  obtain ⟨ic, imp, inp⟩ := option
  cases ic <;> cases imp <;> cases inp <;> with_unfolding_all rfl

/-- **C7** (corrected), counterexample.  A delete call failing with a
"not found" ResponseError (HTTP 404) makes `MSGraphResource.Delete` report
the "Failed to delete resource" diagnostic — it is not treated as
already-successful, contrary to the claim. -/
theorem claim_C7_counterexample :
    msgraphResourceDelete (some (.responseError 404 "")) none =
        .failedDelete (.responseError 404 "") ∧
      ResponseErrorWasNotFound (.responseError 404 "") = true := by
  exact ⟨rfl, rfl⟩

/-- **C7** (corrected), amended claim.  Every error of the delete call
itself — not-found included — makes Delete fail with the
"Failed to delete resource" diagnostic; a "not found" class error (HTTP 404
or code ResourceNotFound) is treated as success (absence) only by the
post-delete consistency poll's existence check. -/
theorem claim_C7_idempotent_delete_amended :
    (∀ (e : GoError) (w : Option GoError),
        msgraphResourceDelete (some e) w = .failedDelete e) ∧
      (∀ e : GoError, ResponseErrorWasNotFound e = true →
        resourceExistenceFromRead (some e) = .ok false) := by
  constructor
  · intro e w
    rfl
  · intro e h
    simp [resourceExistenceFromRead, h]

/-- Witness for C7's amended claim at a concrete not-found error. -/
theorem claim_C7_witness :
    resourceExistenceFromRead (some (.responseError 404 "")) = .ok false :=
  claim_C7_idempotent_delete_amended.2 (.responseError 404 "") (by decide)

/-- **C5** (confirmed).  Update shape-boundedness: applied to two objects,
`UpdateObject` returns an object whose key set is contained in old's key
set; since every nested object level of the result is itself produced by
`UpdateObject` on two objects (or is a sub-value of old or of new), the
universally quantified statement covers every object level. -/
theorem claim_C5_update_shape_bounded :
    ∀ (fs n : GoFields) (option : UpdateJsonOption),
      isObjB (UpdateObject (.vobj fs) (.vobj n) option) = true ∧
      (∀ k, k ∈ objKeys (UpdateObject (.vobj fs) (.vobj n) option) →
        k ∈ objKeys (.vobj fs)) := by
  intro fs n option
  rw [UpdateObject]
  split
  · exact ⟨rfl, fun k hk => hk⟩
  · exact ⟨rfl, fun k hk => updateFields_keys_sub hk⟩

/-- Witness for C5 at a concrete instance. -/
theorem claim_C5_witness :
    isObjB (UpdateObject (.vobj [("a", .vnum 1), ("b", .vstr "s")])
        (.vobj [("a", .vnum 2), ("c", .vnum 3)]) ⟨false, false, false⟩) = true ∧
      "a" ∈ objKeys (.vobj [("a", .vnum 1), ("b", .vstr "s")]) := by
  refine ⟨(claim_C5_update_shape_bounded [("a", .vnum 1), ("b", .vstr "s")]
    [("a", .vnum 2), ("c", .vnum 3)] ⟨false, false, false⟩).1, ?_⟩
  exact (claim_C5_update_shape_bounded [("a", .vnum 1), ("b", .vstr "s")]
    [("a", .vnum 2), ("c", .vnum 3)] ⟨false, false, false⟩).2 "a"
    (by with_unfolding_all decide)

/-- **C10** (confirmed).  In `UpdateObject`'s array case with non-empty old,
the strategy is decided solely by old's first element: when
`identifierOfArrayItem old[0] = ""` (old[0] not an object, no `name`,
non-string `name`, or empty-string `name`), length-checked positional
reconciliation is used — wholesale replacement on length mismatch,
element-wise recursion otherwise — even when other elements of old or new
carry `name` identifiers (os, ns are universally quantified); an
empty-string `name` counts as no identifier and never matches. -/
theorem claim_C10_first_element_decides :
    (∀ (o : GoValue) (os ns : List GoValue) (option : UpdateJsonOption),
        identifierOfArrayItem o = "" → (o :: os).length ≠ ns.length →
        UpdateObject (.varr (o :: os)) (.varr ns) option = .varr ns) ∧
    (∀ (o : GoValue) (os ns : List GoValue) (option : UpdateJsonOption),
        identifierOfArrayItem o = "" →
        deepEqual (.varr (o :: os)) (.varr ns) = false →
        (o :: os).length = ns.length →
        UpdateObject (.varr (o :: os)) (.varr ns) option =
          .varr (List.zipWith (fun a b => UpdateObject a b option) (o :: os) ns)) ∧
    identifierOfArrayItem (.vobj [("name", .vstr "")]) = "" ∧
    areSameArrayItems (.vobj [("name", .vstr "")]) (.vobj [("name", .vstr "")]) = false := by
  refine ⟨?_, ?_, by with_unfolding_all rfl, by with_unfolding_all rfl⟩
  · intro o os ns option hid hlen
    have hde : deepEqual (.varr (o :: os)) (.varr ns) = false := by
      cases h : deepEqual (.varr (o :: os)) (.varr ns)
      · rfl
      · exact absurd (deepEqual_varr_length h) hlen
    rw [UpdateObject, hde]
    simp only [Bool.false_eq_true, if_false]
    simp [hid, hlen]
    intro h
    exact absurd h (by simpa using hlen)
  · intro o os ns option hid hde hlen
    rw [UpdateObject, hde]
    simp only [Bool.false_eq_true, if_false]
    rw [← updatePositional_eq_zipWith]
    simp [hid, hlen]

/-- Witness for C10 at concrete inputs: old's first element has no
identifier while both other elements carry `name` identifiers, and the
lengths differ, so new replaces old wholesale. -/
theorem claim_C10_witness :
    UpdateObject
      (.varr [.vobj [("v", .vnum 1)], .vobj [("name", .vstr "y"), ("v", .vnum 2)]])
      (.varr [.vobj [("name", .vstr "z"), ("v", .vnum 9)]]) ⟨false, false, false⟩ =
      .varr [.vobj [("name", .vstr "z"), ("v", .vnum 9)]] :=
  claim_C10_first_element_decides.1 (.vobj [("v", .vnum 1)])
    [.vobj [("name", .vstr "y"), ("v", .vnum 2)]]
    [.vobj [("name", .vstr "z"), ("v", .vnum 9)]] ⟨false, false, false⟩
    (by with_unfolding_all rfl) (by decide)

/-- **C9** (confirmed).  Totality / fallback-to-new: the three algorithms
are total Lean functions (well-defined by structural recursion, so they
terminate on every finite value and never fail), and on every combination
of inputs not handled by a dedicated case — any pair that is not
object×object, not array×array, and (for update/diff) not string×string —
they fall back to returning the new (desired) value: `MergeObject` returns
new outright, `UpdateObject` returns new (when deep-equal, old, which is
then the same scalar), `DiffObject` returns nil for deep-equal inputs and
new otherwise. -/
theorem claim_C9_totality_fallback :
    (∀ old new : GoValue, (isObjB old && isObjB new) = false →
        (isArrB old && isArrB new) = false → MergeObject old new = new) ∧
    (∀ (old new : GoValue) (option : UpdateJsonOption),
        (isObjB old && isObjB new) = false → (isArrB old && isArrB new) = false →
        (isStrB old && isStrB new) = false → UpdateObject old new option = new) ∧
    (∀ (old new : GoValue) (option : UpdateJsonOption),
        (isObjB old && isObjB new) = false → (isArrB old && isArrB new) = false →
        (isStrB old && isStrB new) = false →
        DiffObject old new option = if deepEqual old new then .vnull else new) := by
  refine ⟨?_, ?_, ?_⟩
  · intro old new h1 h2
    cases old <;> cases new <;> simp_all [MergeObject, isObjB, isArrB]
  · intro old new option h1 h2 h3
    cases old <;> cases new <;>
      simp_all [UpdateObject, deepEqual, isObjB, isArrB, isStrB]
  · intro old new option h1 h2 h3
    by_cases hde : deepEqual old new = true
    · rw [DiffObject, if_pos hde]
      all_goals (intro x y hx hy; subst hx; subst hy; simp_all [isObjB, isArrB, isStrB])
    · rw [DiffObject, if_neg hde]
      on_goal 1 => cases old <;> cases new <;> simp_all [isObjB, isArrB, isStrB]
      all_goals (intro x y hx hy; subst hx; subst hy; simp_all [isObjB, isArrB, isStrB])

/-- Witness for C9 at a concrete type-mismatched pair (object × number). -/
theorem claim_C9_witness :
    MergeObject (.vobj [("a", .vnum 1)]) (.vnum 7) = .vnum 7 ∧
      UpdateObject (.vobj [("a", .vnum 1)]) (.vnum 7) ⟨false, false, false⟩ = .vnum 7 ∧
      DiffObject (.vobj [("a", .vnum 1)]) (.vnum 7) ⟨false, false, false⟩ =
        (if deepEqual (.vobj [("a", .vnum 1)]) (.vnum 7) then .vnull else .vnum 7) :=
  ⟨claim_C9_totality_fallback.1 (.vobj [("a", .vnum 1)]) (.vnum 7) (by decide) (by decide),
   claim_C9_totality_fallback.2.1 (.vobj [("a", .vnum 1)]) (.vnum 7) ⟨false, false, false⟩
     (by decide) (by decide) (by decide),
   claim_C9_totality_fallback.2.2 (.vobj [("a", .vnum 1)]) (.vnum 7) ⟨false, false, false⟩
     (by decide) (by decide) (by decide)⟩


/-! ## C2: emptiness characterization of DiffObject -/

/-- Fast-path lemma: deep-equal inputs diff to nil. -/
theorem DiffObject_of_deepEqual {old new : GoValue} (option : UpdateJsonOption)
    (h : deepEqual old new = true) : DiffObject old new option = .vnull := by
  rw [DiffObject.eq_def, if_pos h]

theorem mapSet_ne_nil (m : GoFields) (k : String) (v : GoValue) : mapSet m k v ≠ [] := by
  cases m with
  | nil => simp [mapSet]
  | cons kv rest => by_cases h : kv.1 = k <;> simp [mapSet, h]

theorem odataPass_ne_nil {res : GoFields} (h : res ≠ []) (n : GoFields) :
    odataPass res n ≠ [] := by
  induction n generalizing res with
  | nil => exact h
  | cons kv rest ih =>
      obtain ⟨k, v⟩ := kv
      rw [odataPass]
      by_cases hc : (hasODataPrefix k && isNilB (mapGet res k)) = true
      · rw [if_pos hc]
        exact ih (mapSet_ne_nil res k v)
      · rw [if_neg hc]
        exact ih h

mutual
/-- The patch computed by `DiffObject` is empty exactly when every
difference between old and new is of an excepted kind. -/
theorem diffEmpty_eq_excepted : ∀ (old new : GoValue) (option : UpdateJsonOption),
    IsEmptyObject (DiffObject old new option) = exceptedOnly option old new
  | old, new, option => by
    rw [DiffObject.eq_def, exceptedOnly.eq_def]
    by_cases hde : deepEqual old new = true
    · rw [if_pos hde, hde]
      rfl
    · have hde' : deepEqual old new = false := by simpa using hde
      rw [if_neg hde, hde', Bool.false_or]
      match old, new with
      | .vobj p, .vobj n =>
          change IsEmptyObject
              (if (diffFields p n option).isEmpty = true then .vnull
               else .vobj (odataPass (diffFields p n option) n)) =
            exceptedFields option p n
          rw [← diffFieldsEmpty p n option]
          cases hres : diffFields p n option with
          | nil => simp [IsEmptyObject]
          | cons kv rest =>
              have hne : odataPass (kv :: rest) n ≠ [] :=
                odataPass_ne_nil (by simp) n
              cases hop : odataPass (kv :: rest) n with
              | nil => exact absurd hop hne
              | cons kv2 rest2 => simp [IsEmptyObject]
      | .varr o, .varr n =>
          change IsEmptyObject
              (if deepEqualList o n = true then .vnull else .varr n) = n.isEmpty
          have hl : deepEqualList o n = false := by simpa [deepEqual] using hde'
          rw [hl]
          cases n <;> simp [IsEmptyObject]
      | .vstr os, .vstr ns =>
          change IsEmptyObject
              (if (option.IgnoreCasing && equalFold os ns) = true then .vnull
               else if (option.IgnoreMissingProperty && isRedactedOrEmpty ns) = true
                 then .vnull else .vstr ns) =
            (option.IgnoreCasing && equalFold os ns ||
              option.IgnoreMissingProperty && isRedactedOrEmpty ns)
          by_cases h1 : (option.IgnoreCasing && equalFold os ns) = true
          · simp [h1, IsEmptyObject]
          · by_cases h2 : (option.IgnoreMissingProperty && isRedactedOrEmpty ns) = true
            · simp [h1, h2, IsEmptyObject]
            · simp [h1, h2, IsEmptyObject]
      | .vnull, .vnull => rfl
      | .vnull, .vbool b => rfl
      | .vnull, .vnum q => rfl
      | .vnull, .vstr t => rfl
      | .vnull, .varr n => rfl
      | .vnull, .vobj n => rfl
      | .vbool b, .vnull => rfl
      | .vbool b, .vbool c => rfl
      | .vbool b, .vnum q => rfl
      | .vbool b, .vstr t => rfl
      | .vbool b, .varr n => rfl
      | .vbool b, .vobj n => rfl
      | .vnum q, .vnull => rfl
      | .vnum q, .vbool b => rfl
      | .vnum q, .vnum r => rfl
      | .vnum q, .vstr t => rfl
      | .vnum q, .varr n => rfl
      | .vnum q, .vobj n => rfl
      | .vstr t, .vnull => rfl
      | .vstr t, .vbool b => rfl
      | .vstr t, .vnum q => rfl
      | .vstr t, .varr n => rfl
      | .vstr t, .vobj n => rfl
      | .varr o, .vnull => rfl
      | .varr o, .vbool b => rfl
      | .varr o, .vnum q => rfl
      | .varr o, .vstr t => rfl
      | .varr o, .vobj n => rfl
      | .vobj p, .vnull => rfl
      | .vobj p, .vbool b => rfl
      | .vobj p, .vnum q => rfl
      | .vobj p, .vstr t => rfl
      | .vobj p, .varr n => rfl
termination_by structural old new option => new

/-- The first diff pass over an object yields no entries exactly when every
entry of new is matched and excepted. -/
theorem diffFieldsEmpty : ∀ (p n : GoFields) (option : UpdateJsonOption),
    (diffFields p n option).isEmpty = exceptedFields option p n
  | p, [], option => rfl
  | p, (k, v) :: rest, option => by
    have he := diffEmpty_eq_excepted (mapGet p k) v option
    have ht := diffFieldsEmpty p rest option
    rw [diffFields, exceptedFields]
    by_cases hm : mapMemB p k = true
    · by_cases hd : IsEmptyObject (DiffObject (mapGet p k) v option) = true
      · have hx : exceptedOnly option (mapGet p k) v = true := by rw [← he]; exact hd
        simp [hm, hd, hx, ht]
      · have hdf : IsEmptyObject (DiffObject (mapGet p k) v option) = false := by
          simpa using hd
        have hx : exceptedOnly option (mapGet p k) v = false := by rw [← he]; exact hdf
        simp [hm, hd, hx]
    · have hm' : mapMemB p k = false := by simpa using hm
      simp [hm, hm']
termination_by structural p n option => n
end

/-- Diffing any well-formed value against itself yields the nil marker. -/
theorem DiffObject_self (x : GoValue) (option : UpdateJsonOption) (h : wfGo x = true) :
    DiffObject x x option = .vnull :=
  DiffObject_of_deepEqual option (deepEqual_refl x h)

/-- **C2** (corrected), counterexample.  A key present in old but absent
from new is a structural difference that `DiffObject` does NOT report: with
previous `{a:1}` and desired `{}` the patch is the Empty marker (nil) even
though the two objects are not deeply equal, refuting the claim's "in
particular" clause. -/
theorem claim_C2_counterexample :
    DiffObject (.vobj [("a", .vnum 1)]) (.vobj []) ⟨false, false, false⟩ = .vnull ∧
      deepEqual (.vobj [("a", .vnum 1)]) (.vobj []) = false :=
  ⟨by with_unfolding_all rfl, by decide⟩

/-- **C2** (corrected), amended claim.  `diff(x,x,policy)` is Empty for
every well-formed x; and the patch is Empty exactly when every structural
difference between old and new is of a suppressed kind (`exceptedOnly`):
string-leaf differences suppressed by ignoreCasing/ignoreMissingProperty,
keys present in old but absent from new (the patch is additive-only),
array differences whose new side is the empty array, and differences whose
new side is null or an empty object/array.  In particular diff is
non-Empty for every difference not of these kinds, and — contrary to the
original claim — a dropped key alone never makes the diff non-Empty. -/
theorem claim_C2_diff_empty_characterization :
    (∀ (x : GoValue) (option : UpdateJsonOption), wfGo x = true →
        DiffObject x x option = .vnull) ∧
      (∀ (old new : GoValue) (option : UpdateJsonOption),
        IsEmptyObject (DiffObject old new option) = exceptedOnly option old new) :=
  ⟨fun x option h => DiffObject_self x option h,
   fun old new option => diffEmpty_eq_excepted old new option⟩

/-- Witness for C2's amended claim at a concrete well-formed value. -/
theorem claim_C2_witness :
    DiffObject (.vobj [("a", .vnum 1), ("b", .varr [.vstr "s"])])
      (.vobj [("a", .vnum 1), ("b", .varr [.vstr "s"])]) ⟨false, true, false⟩ = .vnull :=
  claim_C2_diff_empty_characterization.1
    (.vobj [("a", .vnum 1), ("b", .varr [.vstr "s"])]) ⟨false, true, false⟩
    (by with_unfolding_all rfl)

/-! ## C1/C8: lemmas about diffFields and the discriminator pass -/

theorem mapMemB_iff_mem_keys {m : GoFields} {k : String} :
    mapMemB m k = true ↔ k ∈ m.map Prod.fst := by
  simp [mapMemB, List.any_eq_true, List.mem_map]

/-- Unfolding of `diffFields` on a cons cell, with the `let` resolved. -/
theorem diffFields_cons (p : GoFields) (k0 : String) (v0 : GoValue) (rest : GoFields)
    (option : UpdateJsonOption) :
    diffFields p ((k0, v0) :: rest) option =
      if mapMemB p k0 = true then
        (if IsEmptyObject (DiffObject (mapGet p k0) v0 option) = true then
          diffFields p rest option
         else (k0, DiffObject (mapGet p k0) v0 option) :: diffFields p rest option)
      else (k0, v0) :: diffFields p rest option := by
  rw [diffFields]

theorem diffFields_memsub {p n : GoFields} {option : UpdateJsonOption} {k : String}
    (h : mapMemB (diffFields p n option) k = true) : mapMemB n k = true := by
  induction n with
  | nil => simpa [diffFields, mapMemB] using h
  | cons kv rest ih =>
      obtain ⟨k0, v0⟩ := kv
      rw [diffFields_cons] at h
      rw [mapMemB_cons]
      split at h
      · split at h
        · simp [ih h]
        · rw [mapMemB_cons] at h
          rcases Bool.or_eq_true_iff.mp h with h1 | h1
          · simp [h1]
          · simp [ih h1]
      · rw [mapMemB_cons] at h
        rcases Bool.or_eq_true_iff.mp h with h1 | h1
        · simp [h1]
        · simp [ih h1]

theorem odataPass_mem (n : GoFields) (res : GoFields) (k : String) :
    mapMemB (odataPass res n) k =
      (mapMemB res k || (mapMemB n k && hasODataPrefix k)) := by
  induction n generalizing res with
  | nil => simp [odataPass, mapMemB]
  | cons kv rest ih =>
      obtain ⟨k0, v0⟩ := kv
      rw [odataPass]
      by_cases hc : (hasODataPrefix k0 && isNilB (mapGet res k0)) = true
      · rw [if_pos hc, ih]
        rw [mapMemB_mapSet, mapMemB_cons]
        by_cases hk : k0 = k
        · subst hk
          have hp : hasODataPrefix k0 = true := by
            have := hc
            simp only [Bool.and_eq_true] at this
            exact this.1
          simp [hp]
        · simp [hk]
      · rw [if_neg hc, ih, mapMemB_cons]
        by_cases hk : k0 = k
        · subst hk
          simp only [Bool.and_eq_true, not_and, Bool.not_eq_true] at hc
          by_cases hp : hasODataPrefix k0 = true
          · have hnil : isNilB (mapGet res k0) = false := hc hp
            have hmem : mapMemB res k0 = true := by
              apply mapMemB_of_mapGet_ne
              intro he
              rw [he] at hnil
              simp [isNilB] at hnil
            simp [hmem]
          · have hp' : hasODataPrefix k0 = false := by simpa using hp
            simp [hp']
        · simp [hk]

theorem odataPass_get (n : GoFields) (res : GoFields) (k : String)
    (hn : keysNodupB (n.map Prod.fst) = true) :
    mapGet (odataPass res n) k =
      if (mapMemB n k && hasODataPrefix k && isNilB (mapGet res k)) = true then mapGet n k
      else mapGet res k := by
  induction n generalizing res with
  | nil => simp [odataPass, mapMemB]
  | cons kv rest ih =>
      obtain ⟨k0, v0⟩ := kv
      rw [List.map_cons] at hn
      obtain ⟨hne, hn2⟩ := keysNodupB_cons hn
      rw [odataPass]
      by_cases hk : k0 = k
      · subst hk
        have hrest : mapMemB rest k0 = false := by
          by_contra hx
          have hx' : mapMemB rest k0 = true := by simpa using hx
          exact hne k0 (mapMemB_iff_mem_keys.mp hx') rfl
        by_cases hc : (hasODataPrefix k0 && isNilB (mapGet res k0)) = true
        · obtain ⟨hp, hnil⟩ : hasODataPrefix k0 = true ∧ isNilB (mapGet res k0) = true := by
            simpa using hc
          rw [if_pos hc, ih _ hn2, hrest]
          simp only [Bool.false_and, Bool.false_eq_true, if_false]
          rw [mapGet_mapSet_self]
          simp [mapGet_cons, mapMemB_cons, hp, hnil]
        · have hcf : (hasODataPrefix k0 && isNilB (mapGet res k0)) = false := by
            simpa using hc
          rw [if_neg hc, ih _ hn2, hrest]
          simp only [Bool.false_and, Bool.false_eq_true, if_false]
          simp [mapGet_cons, mapMemB_cons, hcf, Bool.and_assoc]
      · have hmemeq : mapMemB ((k0, v0) :: rest) k = mapMemB rest k := by
          rw [mapMemB_cons]
          simp [hk]
        have hgeteq : mapGet ((k0, v0) :: rest) k = mapGet rest k := by
          rw [mapGet_cons, if_neg hk]
        rw [hmemeq, hgeteq]
        by_cases hc : (hasODataPrefix k0 && isNilB (mapGet res k0)) = true
        · rw [if_pos hc, ih _ hn2, mapGet_mapSet_ne res v0 hk]
        · rw [if_neg hc, ih _ hn2]

theorem diffFields_get (p : GoFields) (n : GoFields) (option : UpdateJsonOption)
    (k : String) (hn : keysNodupB (n.map Prod.fst) = true) (hm : mapMemB n k = true) :
    mapGet (diffFields p n option) k =
      if mapMemB p k = true then
        (if IsEmptyObject (DiffObject (mapGet p k) (mapGet n k) option) = true then .vnull
         else DiffObject (mapGet p k) (mapGet n k) option)
      else mapGet n k := by
  induction n with
  | nil => simp [mapMemB] at hm
  | cons kv rest ih =>
      obtain ⟨k0, v0⟩ := kv
      rw [List.map_cons] at hn
      obtain ⟨hne, hn2⟩ := keysNodupB_cons hn
      rw [diffFields_cons]
      by_cases hk : k0 = k
      · subst hk
        have hrest : mapMemB rest k0 = false := by
          by_contra hx
          have hx' : mapMemB rest k0 = true := by simpa using hx
          exact hne k0 (mapMemB_iff_mem_keys.mp hx') rfl
        have hget : mapGet ((k0, v0) :: rest) k0 = v0 := by simp [mapGet_cons]
        rw [hget]
        by_cases hmp : mapMemB p k0 = true
        · rw [if_pos hmp, if_pos hmp]
          by_cases hd : IsEmptyObject (DiffObject (mapGet p k0) v0 option) = true
          · rw [if_pos hd, if_pos hd]
            apply mapGet_eq_of_not_mem
            by_contra hx
            have hx' : mapMemB (diffFields p rest option) k0 = true := by simpa using hx
            rw [diffFields_memsub hx'] at hrest
            exact Bool.true_eq_false.mp hrest
          · rw [if_neg hd, if_neg hd, mapGet_cons]
            simp
        · rw [if_neg hmp, if_neg hmp, mapGet_cons]
          simp
      · have hm' : mapMemB rest k = true := by
          rw [mapMemB_cons] at hm
          rcases Bool.or_eq_true_iff.mp hm with h1 | h1
          · exact absurd (by simpa using h1) hk
          · exact h1
        have hget : mapGet ((k0, v0) :: rest) k = mapGet rest k := by
          rw [mapGet_cons, if_neg hk]
        rw [hget]
        by_cases hmp : mapMemB p k0 = true
        · rw [if_pos hmp]
          by_cases hd : IsEmptyObject (DiffObject (mapGet p k0) v0 option) = true
          · rw [if_pos hd]
            exact ih hn2 hm'
          · rw [if_neg hd, mapGet_cons, if_neg hk]
            exact ih hn2 hm'
        · rw [if_neg hmp, mapGet_cons, if_neg hk]
          exact ih hn2 hm'

/-- When the desired side is not an object, a non-empty `DiffObject` result
is the desired value verbatim (arrays go wholesale, non-suppressed strings
and scalars are returned as-is). -/
theorem diff_nonobj_new (old v : GoValue) (option : UpdateJsonOption)
    (hv : isObjB v = false)
    (hne : IsEmptyObject (DiffObject old v option) = false) :
    DiffObject old v option = v := by
  by_cases hde : deepEqual old v = true
  · rw [DiffObject_of_deepEqual option hde] at hne
    simp [IsEmptyObject] at hne
  · have hde' : deepEqual old v = false := by simpa using hde
    rw [DiffObject.eq_def, if_neg hde] at hne ⊢
    match old, v with
    | .vobj p, .vobj n => simp [isObjB] at hv
    | .varr o, .varr n =>
        have hl : deepEqualList o n = false := by simpa [deepEqual] using hde'
        change (if deepEqualList o n = true then GoValue.vnull else .varr n) = .varr n
        rw [hl]
        simp
    | .vstr os, .vstr ns =>
        change IsEmptyObject
            (if (option.IgnoreCasing && equalFold os ns) = true then .vnull
             else if (option.IgnoreMissingProperty && isRedactedOrEmpty ns) = true
               then .vnull else .vstr ns) = false at hne
        change (if (option.IgnoreCasing && equalFold os ns) = true then GoValue.vnull
             else if (option.IgnoreMissingProperty && isRedactedOrEmpty ns) = true
               then GoValue.vnull else .vstr ns) = .vstr ns
        by_cases h1 : (option.IgnoreCasing && equalFold os ns) = true
        · rw [if_pos h1] at hne
          simp [IsEmptyObject] at hne
        · rw [if_neg h1] at hne ⊢
          by_cases h2 : (option.IgnoreMissingProperty && isRedactedOrEmpty ns) = true
          · rw [if_pos h2] at hne
            simp [IsEmptyObject] at hne
          · rw [if_neg h2]
    | .vnull, .vnull => rfl
    | .vnull, .vbool b => rfl
    | .vnull, .vnum q => rfl
    | .vnull, .vstr t => rfl
    | .vnull, .varr n => rfl
    | .vbool b, .vnull => rfl
    | .vbool b, .vbool c => rfl
    | .vbool b, .vnum q => rfl
    | .vbool b, .vstr t => rfl
    | .vbool b, .varr n => rfl
    | .vnum q, .vnull => rfl
    | .vnum q, .vbool b => rfl
    | .vnum q, .vnum r => rfl
    | .vnum q, .vstr t => rfl
    | .vnum q, .varr n => rfl
    | .vstr t, .vnull => rfl
    | .vstr t, .vbool b => rfl
    | .vstr t, .vnum q => rfl
    | .vstr t, .varr n => rfl
    | .varr o, .vnull => rfl
    | .varr o, .vbool b => rfl
    | .varr o, .vnum q => rfl
    | .varr o, .vstr t => rfl
    | .vobj p, .vnull => rfl
    | .vobj p, .vbool b => rfl
    | .vobj p, .vnum q => rfl
    | .vobj p, .vstr t => rfl
    | .vobj p, .varr n => rfl

/-- **C1** (corrected), counterexample.  An `@odata.`-prefixed key whose
value is an object that changed only partially is included in the patch as
its partial sub-diff, not verbatim with desired's value: with previous
`{"@odata.k": {a:1, c:5}}` and desired `{"@odata.k": {a:2, c:5}}` the patch
is the non-empty object `{"@odata.k": {a:2}}`, whose value at the
discriminator key differs from desired's `{a:2, c:5}`. -/
theorem claim_C1_counterexample :
    DiffObject (.vobj [("@odata.k", .vobj [("a", .vnum 1), ("c", .vnum 5)])])
        (.vobj [("@odata.k", .vobj [("a", .vnum 2), ("c", .vnum 5)])])
        ⟨false, false, false⟩ =
      .vobj [("@odata.k", .vobj [("a", .vnum 2)])] ∧
    hasODataPrefix "@odata.k" = true ∧
    deepEqual (.vobj [("a", .vnum 2)]) (.vobj [("a", .vnum 2), ("c", .vnum 5)]) = false :=
  ⟨by with_unfolding_all rfl, by decide, by decide⟩

/-- **C1** (corrected), amended claim.  When previous and desired are
deeply equal, `DiffObject` returns the Empty marker; and whenever
`DiffObject` on two objects returns a non-empty object patch, every
`@odata.`-prefixed key of desired appears in the patch, with exactly
desired's value whenever desired's value at that key is not itself an
object, and likewise (verbatim) whenever the key is absent from previous —
object-valued discriminator keys present on both sides may instead carry a
partial sub-diff (see the counterexample). -/
theorem claim_C1_discriminator_propagation_amended :
    (∀ (prev desired : GoValue) (option : UpdateJsonOption),
        deepEqual prev desired = true → DiffObject prev desired option = .vnull) ∧
    (∀ (p n : GoFields) (option : UpdateJsonOption) (res : GoFields),
        keysNodupB (n.map Prod.fst) = true →
        DiffObject (.vobj p) (.vobj n) option = .vobj res →
        ∀ k, hasODataPrefix k = true → mapMemB n k = true →
          mapMemB res k = true ∧
            (isObjB (mapGet n k) = false → mapGet res k = mapGet n k) ∧
            (mapMemB p k = false → mapGet res k = mapGet n k)) := by
  constructor
  · intro prev desired option h
    exact DiffObject_of_deepEqual option h
  · intro p n option res hn hdiff k hpre hmem
    rw [DiffObject.eq_def] at hdiff
    by_cases hde : deepEqual (.vobj p) (.vobj n) = true
    · rw [if_pos hde] at hdiff
      exact GoValue.noConfusion hdiff
    · rw [if_neg hde] at hdiff
      change (if (diffFields p n option).isEmpty = true then GoValue.vnull
          else .vobj (odataPass (diffFields p n option) n)) = .vobj res at hdiff
      by_cases hre : (diffFields p n option).isEmpty = true
      · rw [if_pos hre] at hdiff
        exact GoValue.noConfusion hdiff
      · rw [if_neg hre] at hdiff
        have hres : res = odataPass (diffFields p n option) n := by
          injection hdiff with h
          exact h.symm
        subst hres
        have hget1 := diffFields_get p n option k hn hmem
        refine ⟨?_, ?_, ?_⟩
        · rw [odataPass_mem]
          simp [hmem, hpre]
        · intro hobj
          rw [odataPass_get n (diffFields p n option) k hn]
          by_cases hmp : mapMemB p k = true
          · rw [if_pos hmp] at hget1
            by_cases hd : IsEmptyObject
                (DiffObject (mapGet p k) (mapGet n k) option) = true
            · rw [if_pos hd] at hget1
              simp [hmem, hpre, hget1, isNilB]
            · rw [if_neg hd] at hget1
              have hd' : IsEmptyObject
                  (DiffObject (mapGet p k) (mapGet n k) option) = false := by
                simpa using hd
              have hdval := diff_nonobj_new (mapGet p k) (mapGet n k) option hobj hd'
              rw [hdval] at hget1
              by_cases hnil : isNilB (mapGet (diffFields p n option) k) = true
              · simp [hmem, hpre, hnil]
              · have hnil' : isNilB (mapGet (diffFields p n option) k) = false := by
                  simpa using hnil
                simp [hmem, hpre, hnil', hget1]
          · rw [if_neg hmp] at hget1
            by_cases hnil : isNilB (mapGet (diffFields p n option) k) = true
            · simp [hmem, hpre, hnil]
            · have hnil' : isNilB (mapGet (diffFields p n option) k) = false := by
                simpa using hnil
              simp [hmem, hpre, hnil', hget1]
        · intro hmpf
          rw [odataPass_get n (diffFields p n option) k hn]
          rw [if_neg (by simp [hmpf])] at hget1
          by_cases hnil : isNilB (mapGet (diffFields p n option) k) = true
          · simp [hmem, hpre, hnil]
          · have hnil' : isNilB (mapGet (diffFields p n option) k) = false := by
              simpa using hnil
            simp [hmem, hpre, hnil', hget1]

/-- Witness for C1's amended claim at concrete inputs. -/
theorem claim_C1_witness :
    DiffObject (.vobj [("a", .vnum 1)]) (.vobj [("a", .vnum 1)]) ⟨false, false, false⟩ =
        .vnull ∧
      mapMemB [("x", GoValue.vnum 2), ("@odata.type", GoValue.vstr "T")] "@odata.type" =
        true :=
  ⟨claim_C1_discriminator_propagation_amended.1 (.vobj [("a", .vnum 1)])
      (.vobj [("a", .vnum 1)]) ⟨false, false, false⟩ (by decide),
   (claim_C1_discriminator_propagation_amended.2
      [("x", .vnum 1), ("@odata.type", .vstr "T")]
      [("x", .vnum 2), ("@odata.type", .vstr "T")] ⟨false, false, false⟩
      [("x", .vnum 2), ("@odata.type", .vstr "T")] (by decide)
      (by with_unfolding_all rfl) "@odata.type" (by decide) (by decide)).1⟩

/-- Every non-empty first diff pass contains at least one genuine change:
a created key (absent from previous) or a key whose recursive diff is
non-empty. -/
theorem diffFields_has_real_change (p : GoFields) (option : UpdateJsonOption) :
    ∀ n : GoFields, keysNodupB (n.map Prod.fst) = true →
      diffFields p n option ≠ [] →
      ∃ k, mapMemB (diffFields p n option) k = true ∧
        (mapMemB p k = false ∨
          IsEmptyObject (DiffObject (mapGet p k) (mapGet n k) option) = false) := by
  intro n
  induction n with
  | nil =>
      intro _ hne
      simp [diffFields] at hne
  | cons kv rest ih =>
      intro hn hne
      obtain ⟨k0, v0⟩ := kv
      rw [List.map_cons] at hn
      obtain ⟨hne0, hn2⟩ := keysNodupB_cons hn
      rw [diffFields_cons] at hne ⊢
      by_cases hmp : mapMemB p k0 = true
      · by_cases hd : IsEmptyObject (DiffObject (mapGet p k0) v0 option) = true
        · rw [if_pos hmp, if_pos hd] at hne ⊢
          obtain ⟨k, hk1, hk2⟩ := ih hn2 hne
          have hkrest : mapMemB rest k = true := diffFields_memsub hk1
          have hkne : k ≠ k0 := hne0 k (mapMemB_iff_mem_keys.mp hkrest)
          refine ⟨k, hk1, ?_⟩
          have hget : mapGet ((k0, v0) :: rest) k = mapGet rest k := by
            rw [mapGet_cons, if_neg (fun h => hkne h.symm)]
          rw [hget]
          exact hk2
        · rw [if_pos hmp, if_neg hd]
          refine ⟨k0, by simp [mapMemB_cons], Or.inr ?_⟩
          have hget : mapGet ((k0, v0) :: rest) k0 = v0 := by simp [mapGet_cons]
          rw [hget]
          simpa using hd
      · rw [if_neg hmp]
        refine ⟨k0, by simp [mapMemB_cons], Or.inl (by simpa using hmp)⟩

/-- **C8** (corrected), counterexample.  A patch CAN consist solely of
discriminator-prefixed keys: when the discriminator itself was created or
changed, e.g. previous `{}` and desired `{"@odata.type":"B"}` give the
non-empty patch `{"@odata.type":"B"}`, all of whose keys carry the
`@odata.` prefix. -/
theorem claim_C8_counterexample :
    DiffObject (.vobj []) (.vobj [("@odata.type", .vstr "B")]) ⟨false, false, false⟩ =
        .vobj [("@odata.type", .vstr "B")] ∧
      ([("@odata.type", GoValue.vstr "B")].map Prod.fst).all hasODataPrefix = true :=
  ⟨by with_unfolding_all rfl, by decide⟩

/-- **C8** (corrected), amended claim.  A non-empty object patch always
contains at least one key recording a genuine first-pass change — a key
absent from previous, or one whose recursive diff is non-empty; unchanged
discriminator keys are only ever added alongside such a change, never on
their own.  (A patch may still consist solely of `@odata.`-prefixed keys
when a discriminator itself was created or changed.) -/
theorem claim_C8_never_alone_amended :
    ∀ (p n : GoFields) (option : UpdateJsonOption) (res : GoFields),
      keysNodupB (n.map Prod.fst) = true →
      DiffObject (.vobj p) (.vobj n) option = .vobj res →
      ∃ k, mapMemB res k = true ∧
        (mapMemB p k = false ∨
          IsEmptyObject (DiffObject (mapGet p k) (mapGet n k) option) = false) := by
  intro p n option res hn hdiff
  rw [DiffObject.eq_def] at hdiff
  by_cases hde : deepEqual (.vobj p) (.vobj n) = true
  · rw [if_pos hde] at hdiff
    exact GoValue.noConfusion hdiff
  · rw [if_neg hde] at hdiff
    change (if (diffFields p n option).isEmpty = true then GoValue.vnull
        else .vobj (odataPass (diffFields p n option) n)) = .vobj res at hdiff
    by_cases hre : (diffFields p n option).isEmpty = true
    · rw [if_pos hre] at hdiff
      exact GoValue.noConfusion hdiff
    · rw [if_neg hre] at hdiff
      have hres : res = odataPass (diffFields p n option) n := by
        injection hdiff with h
        exact h.symm
      subst hres
      have hnil : diffFields p n option ≠ [] := by
        intro h
        rw [h] at hre
        exact hre rfl
      obtain ⟨k, hk1, hk2⟩ := diffFields_has_real_change p option n hn hnil
      refine ⟨k, ?_, hk2⟩
      rw [odataPass_mem]
      simp [hk1]

/-- Witness for C8's amended claim at concrete inputs. -/
theorem claim_C8_witness :
    ∃ k, mapMemB [("x", GoValue.vnum 2), ("@odata.type", GoValue.vstr "T")] k = true ∧
      (mapMemB [("x", GoValue.vnum 1), ("@odata.type", GoValue.vstr "T")] k = false ∨
        IsEmptyObject
          (DiffObject
            (mapGet [("x", GoValue.vnum 1), ("@odata.type", GoValue.vstr "T")] k)
            (mapGet [("x", GoValue.vnum 2), ("@odata.type", GoValue.vstr "T")] k)
            ⟨false, false, false⟩) = false) :=
  claim_C8_never_alone_amended
    [("x", .vnum 1), ("@odata.type", .vstr "T")]
    [("x", .vnum 2), ("@odata.type", .vstr "T")] ⟨false, false, false⟩
    [("x", .vnum 2), ("@odata.type", .vstr "T")] (by decide)
    (by with_unfolding_all rfl)

/-! ## C6: merge precedence -/

theorem MergeObject_vnull (old : GoValue) : MergeObject old .vnull = .vnull := by
  cases old <;> rfl

theorem MergeObject_obj (fs n : GoFields) :
    MergeObject (.vobj fs) (.vobj n) =
      .vobj (mergeSecondPass (mergeFirstPass fs n) n) := by
  rw [MergeObject]

theorem MergeObject_arr (o n : List GoValue) :
    MergeObject (.varr o) (.varr n) =
      if o.length = n.length then .varr (mergeElems o n) else .varr n := by
  rw [MergeObject]

/-- `MergeObject` returns nil exactly when new is nil. -/
theorem MergeObject_eq_vnull_iff (a b : GoValue) :
    MergeObject a b = .vnull ↔ b = .vnull := by
  constructor
  · intro h
    cases b with
    | vnull => rfl
    | vbool c => cases a <;> simp [MergeObject] at h
    | vnum q => cases a <;> simp [MergeObject] at h
    | vstr t => cases a <;> simp [MergeObject] at h
    | varr n =>
        cases a with
        | varr o =>
            rw [MergeObject_arr] at h
            split at h <;> exact GoValue.noConfusion h
        | vnull => simp [MergeObject] at h
        | vbool c => simp [MergeObject] at h
        | vnum q => simp [MergeObject] at h
        | vstr t => simp [MergeObject] at h
        | vobj fs => simp [MergeObject] at h
    | vobj n =>
        cases a with
        | vobj fs =>
            rw [MergeObject_obj] at h
            exact GoValue.noConfusion h
        | vnull => simp [MergeObject] at h
        | vbool c => simp [MergeObject] at h
        | vnum q => simp [MergeObject] at h
        | vstr t => simp [MergeObject] at h
        | varr o => simp [MergeObject] at h
  · intro h
    subst h
    exact MergeObject_vnull a

theorem mergeFirstPass_mem (fs n : GoFields) (k : String) :
    mapMemB (mergeFirstPass fs n) k = mapMemB fs k := by
  induction fs with
  | nil => rfl
  | cons kv rest ih =>
      obtain ⟨k0, v0⟩ := kv
      rw [mergeFirstPass, mapMemB_cons, mapMemB_cons, ih]

theorem mergeFirstPass_get_mem (fs n : GoFields) (k : String)
    (h : mapMemB fs k = true) :
    mapGet (mergeFirstPass fs n) k =
      if mapMemB n k = true then MergeObject (mapGet fs k) (mapGet n k)
      else mapGet fs k := by
  induction fs with
  | nil => simp [mapMemB] at h
  | cons kv rest ih =>
      obtain ⟨k0, v0⟩ := kv
      rw [mergeFirstPass, mapGet_cons, mapGet_cons]
      by_cases hk : k0 = k
      · subst hk
        simp only [if_pos rfl]
        by_cases hn : mapMemB n k0 = true <;> simp [hn]
      · rw [if_neg hk, if_neg hk]
        rw [mapMemB_cons] at h
        rcases Bool.or_eq_true_iff.mp h with h1 | h1
        · exact absurd (by simpa using h1) hk
        · exact ih h1

theorem mergeSecondPass_mem_mono (n : GoFields) (res : GoFields) (k : String)
    (h : mapMemB res k = true) : mapMemB (mergeSecondPass res n) k = true := by
  induction n generalizing res with
  | nil => exact h
  | cons kv rest ih =>
      obtain ⟨k0, v0⟩ := kv
      rw [mergeSecondPass]
      by_cases hc : isNilB (mapGet res k0) = true
      · rw [if_pos hc]
        apply ih
        rw [mapMemB_mapSet]
        simp [h]
      · rw [if_neg hc]
        exact ih _ h

theorem mergeSecondPass_not_mem (n : GoFields) (res : GoFields) (k : String)
    (h : mapMemB n k = false) :
    mapGet (mergeSecondPass res n) k = mapGet res k := by
  induction n generalizing res with
  | nil => rfl
  | cons kv rest ih =>
      obtain ⟨k0, v0⟩ := kv
      rw [mapMemB_cons] at h
      simp only [Bool.or_eq_false_iff, decide_eq_false_iff_not] at h
      rw [mergeSecondPass]
      by_cases hc : isNilB (mapGet res k0) = true
      · rw [if_pos hc, ih _ h.2, mapGet_mapSet_ne res v0 h.1]
      · rw [if_neg hc]
        exact ih _ h.2

theorem mergeSecondPass_ne_nil (n : GoFields) (res : GoFields) (k : String)
    (h : isNilB (mapGet res k) = false) :
    mapGet (mergeSecondPass res n) k = mapGet res k := by
  induction n generalizing res with
  | nil => rfl
  | cons kv rest ih =>
      obtain ⟨k0, v0⟩ := kv
      rw [mergeSecondPass]
      by_cases hk : k0 = k
      · subst hk
        rw [if_neg (by simp [h])]
        exact ih _ h
      · by_cases hc : isNilB (mapGet res k0) = true
        · rw [if_pos hc]
          have hpre : mapGet (mapSet res k0 v0) k = mapGet res k :=
            mapGet_mapSet_ne res v0 hk
          rw [ih _ (by rw [hpre]; exact h), hpre]
        · rw [if_neg hc]
          exact ih _ h

theorem mergeSecondPass_get (n : GoFields) (res : GoFields) (k : String)
    (hn : keysNodupB (n.map Prod.fst) = true) :
    mapGet (mergeSecondPass res n) k =
      if (isNilB (mapGet res k) && mapMemB n k) = true then mapGet n k
      else mapGet res k := by
  induction n generalizing res with
  | nil => simp [mergeSecondPass, mapMemB]
  | cons kv rest ih =>
      obtain ⟨k0, v0⟩ := kv
      rw [List.map_cons] at hn
      obtain ⟨hne, hn2⟩ := keysNodupB_cons hn
      rw [mergeSecondPass]
      by_cases hk : k0 = k
      · subst hk
        have hrest : mapMemB rest k0 = false := by
          by_contra hx
          have hx' : mapMemB rest k0 = true := by simpa using hx
          exact hne k0 (mapMemB_iff_mem_keys.mp hx') rfl
        by_cases hnil : isNilB (mapGet res k0) = true
        · rw [if_pos hnil, mergeSecondPass_not_mem rest _ _ hrest,
            mapGet_mapSet_self]
          simp [hnil, mapMemB_cons, mapGet_cons]
        · rw [if_neg hnil, mergeSecondPass_not_mem rest _ _ hrest]
          have hnil' : isNilB (mapGet res k0) = false := by simpa using hnil
          simp [hnil', mapGet_cons]
      · have hmemeq : mapMemB ((k0, v0) :: rest) k = mapMemB rest k := by
          rw [mapMemB_cons]
          simp [hk]
        have hgeteq : mapGet ((k0, v0) :: rest) k = mapGet rest k := by
          rw [mapGet_cons, if_neg hk]
        rw [hmemeq, hgeteq]
        by_cases hc : isNilB (mapGet res k0) = true
        · rw [if_pos hc, ih _ hn2, mapGet_mapSet_ne res v0 hk]
        · rw [if_neg hc]
          exact ih _ hn2

theorem mergeElems_get (o n : List GoValue) (i : Nat) :
    o.length = n.length →
    (mergeElems o n).get? i =
      match o.get? i, n.get? i with
      | some a, some b => some (MergeObject a b)
      | _, _ => none := by
  induction o generalizing n i with
  | nil =>
      intro h
      cases n with
      | nil => cases i <;> rfl
      | cons y ys => simp at h
  | cons x xs ih =>
      intro h
      cases n with
      | nil => simp at h
      | cons y ys =>
          cases i with
          | zero => rfl
          | succ j =>
              rw [mergeElems]
              simpa using ih ys j (by simpa using h)

theorem wfGo_mapGet {fs : GoFields} (h : wfGoFields fs = true) (k : String) :
    wfGo (mapGet fs k) = true := by
  induction fs with
  | nil => rfl
  | cons kv rest ih =>
      obtain ⟨k0, v0⟩ := kv
      rw [wfGoFields] at h
      simp only [Bool.and_eq_true] at h
      rw [mapGet_cons]
      by_cases hk : k0 = k
      · rw [if_pos hk]
        exact h.1
      · rw [if_neg hk]
        exact ih h.2

theorem wfGoList_get {xs : List GoValue} {i : Nat} {x : GoValue}
    (h : wfGoList xs = true) (hx : xs.get? i = some x) : wfGo x = true := by
  induction xs generalizing i with
  | nil => simp at hx
  | cons y ys ih =>
      rw [wfGoList] at h
      simp only [Bool.and_eq_true] at h
      cases i with
      | zero =>
          simp only [List.get?] at hx
          cases hx
          exact h.1
      | succ j => exact ih h.2 (by simpa using hx)

theorem isNilB_eq_false_iff {x : GoValue} : isNilB x = false ↔ x ≠ .vnull := by
  cases x <;> simp [isNilB]

theorem merge_leaf (old v : GoValue) (h : isLeafB v = true) : MergeObject old v = v := by
  cases v with
  | vnull => exact MergeObject_vnull old
  | vbool b => cases old <;> rfl
  | vnum q => cases old <;> rfl
  | vstr t => cases old <;> rfl
  | varr n => simp [isLeafB] at h
  | vobj n => simp [isLeafB] at h

/-- A leaf explicitly present in new at a path shared with old survives the
merge verbatim. -/
theorem merge_path_leaf : ∀ (path : List PathStep) (old new v : GoValue),
    wfGo new = true → isLeafB v = true →
    lookupPath new path = some v → (lookupPath old path).isSome = true →
    lookupPath (MergeObject old new) path = some v := by
  intro path
  induction path with
  | nil =>
      intro old new v hwf hleaf hnew hold
      simp only [lookupPath, Option.some.injEq] at hnew
      subst hnew
      simp [lookupPath, merge_leaf old new hleaf]
  | cons step rest ih =>
      intro old new v hwf hnleaf hnew hold
      cases step with
      | key k =>
          cases new with
          | vobj n =>
              simp only [wfGo, Bool.and_eq_true] at hwf
              rw [lookupPath] at hnew
              by_cases hm : mapMemB n k = true
              · rw [if_pos hm] at hnew
                cases old with
                | vobj fs =>
                    rw [lookupPath] at hold
                    by_cases hmf : mapMemB fs k = true
                    · rw [if_pos hmf] at hold
                      rw [MergeObject_obj, lookupPath]
                      have hmem :
                          mapMemB (mergeSecondPass (mergeFirstPass fs n) n) k = true := by
                        apply mergeSecondPass_mem_mono
                        rw [mergeFirstPass_mem]
                        exact hmf
                      rw [if_pos hmem]
                      have hX : mapGet (mergeFirstPass fs n) k =
                          MergeObject (mapGet fs k) (mapGet n k) := by
                        rw [mergeFirstPass_get_mem fs n k hmf, if_pos hm]
                      by_cases hnil : mapGet n k = .vnull
                      · rw [hnil] at hnew
                        cases rest with
                        | cons s rs => simp [lookupPath] at hnew
                        | nil =>
                            simp only [lookupPath, Option.some.injEq] at hnew
                            subst hnew
                            have hval :
                                mapGet (mergeSecondPass (mergeFirstPass fs n) n) k =
                                  .vnull := by
                              rw [mergeSecondPass_get n _ k hwf.1, hX, hnil,
                                MergeObject_vnull]
                              simp [isNilB, hm]
                            rw [hval]
                            rfl
                      · have hXne :
                            isNilB (mapGet (mergeFirstPass fs n) k) = false := by
                          rw [isNilB_eq_false_iff, hX]
                          intro hq
                          exact hnil ((MergeObject_eq_vnull_iff _ _).mp hq)
                        have hval :
                            mapGet (mergeSecondPass (mergeFirstPass fs n) n) k =
                              MergeObject (mapGet fs k) (mapGet n k) := by
                          rw [mergeSecondPass_ne_nil n _ k hXne, hX]
                        rw [hval]
                        exact ih (mapGet fs k) (mapGet n k) v
                          (wfGo_mapGet hwf.2 k) hnleaf hnew hold
                    · rw [if_neg hmf] at hold
                      simp at hold
                | vnull => simp [lookupPath] at hold
                | vbool b => simp [lookupPath] at hold
                | vnum q => simp [lookupPath] at hold
                | vstr t => simp [lookupPath] at hold
                | varr o => simp [lookupPath] at hold
              · rw [if_neg hm] at hnew
                exact absurd hnew (by simp)
          | vnull => simp [lookupPath] at hnew
          | vbool b => simp [lookupPath] at hnew
          | vnum q => simp [lookupPath] at hnew
          | vstr t => simp [lookupPath] at hnew
          | varr n => simp [lookupPath] at hnew
      | idx i =>
          cases new with
          | varr n =>
              rw [lookupPath] at hnew
              cases hni : n.get? i with
              | none => rw [hni] at hnew; simp at hnew
              | some ni =>
                  rw [hni] at hnew
                  cases old with
                  | varr o =>
                      rw [lookupPath] at hold
                      cases hoi : o.get? i with
                      | none => rw [hoi] at hold; simp at hold
                      | some oi =>
                          rw [hoi] at hold
                          rw [MergeObject_arr]
                          by_cases hlen : o.length = n.length
                          · rw [if_pos hlen, lookupPath,
                              mergeElems_get o n i hlen, hoi, hni]
                            exact ih oi ni v
                              (wfGoList_get (by simpa [wfGo] using hwf) hni)
                              hnleaf hnew hold
                          · rw [if_neg hlen, lookupPath, hni]
                            exact hnew
                  | vnull => simp [lookupPath] at hold
                  | vbool b => simp [lookupPath] at hold
                  | vnum q => simp [lookupPath] at hold
                  | vstr t => simp [lookupPath] at hold
                  | vobj fs => simp [lookupPath] at hold
          | vnull => simp [lookupPath] at hnew
          | vbool b => simp [lookupPath] at hnew
          | vnum q => simp [lookupPath] at hnew
          | vstr t => simp [lookupPath] at hnew
          | vobj n => simp [lookupPath] at hnew

/-- **C6** (confirmed).  Merge precedence: merging with the explicit
no-value marker (Go nil) yields that marker; a leaf explicitly set in new
at any path shared with old appears verbatim in the merge result (new wins
on every conflict); arrays of unequal length are replaced by new wholesale;
and objects keep every key of old (equal-length arrays merge element-wise
by `mergeElems`, used by the path statement). -/
theorem claim_C6_merge_precedence :
    (∀ old : GoValue, MergeObject old .vnull = .vnull) ∧
    (∀ (path : List PathStep) (old new v : GoValue),
        wfGo new = true → isLeafB v = true →
        lookupPath new path = some v → (lookupPath old path).isSome = true →
        lookupPath (MergeObject old new) path = some v) ∧
    (∀ o n : List GoValue, o.length ≠ n.length →
        MergeObject (.varr o) (.varr n) = .varr n) ∧
    (∀ (fs n : GoFields) (k : String), mapMemB fs k = true →
        k ∈ objKeys (MergeObject (.vobj fs) (.vobj n))) := by
  refine ⟨MergeObject_vnull, merge_path_leaf, ?_, ?_⟩
  · intro o n h
    rw [MergeObject_arr, if_neg h]
  · intro fs n k h
    rw [MergeObject_obj, objKeys]
    exact mapMemB_iff_mem_keys.mp
      (mergeSecondPass_mem_mono n _ k (by rw [mergeFirstPass_mem]; exact h))

/-- Witness for C6 at concrete inputs: the changed leaf of new wins at the
shared path "a", an unequal-length array is replaced wholesale, and an
old-only key survives an object merge. -/
theorem claim_C6_witness :
    lookupPath
        (MergeObject (.vobj [("a", .vnum 1), ("b", .vnum 3)])
          (.vobj [("a", .vnum 2)])) [.key "a"] = some (.vnum 2) ∧
      MergeObject (.varr [.vnum 1, .vnum 2]) (.varr [.vnum 9]) = .varr [.vnum 9] ∧
      "b" ∈ objKeys (MergeObject (.vobj [("a", .vnum 1), ("b", .vnum 3)])
        (.vobj [("a", .vnum 2)])) :=
  ⟨claim_C6_merge_precedence.2.1 [.key "a"]
      (.vobj [("a", .vnum 1), ("b", .vnum 3)]) (.vobj [("a", .vnum 2)]) (.vnum 2)
      (by decide) (by decide) (by with_unfolding_all rfl) (by with_unfolding_all rfl),
   claim_C6_merge_precedence.2.2.1 [.vnum 1, .vnum 2] [.vnum 9] (by decide),
   claim_C6_merge_precedence.2.2.2 [("a", .vnum 1), ("b", .vnum 3)] [("a", .vnum 2)]
     "b" (by decide)⟩

/-! ## C3: idempotence of UpdateObject on identifier-free values -/

theorem isNilB_true_iff {x : GoValue} : isNilB x = true ↔ x = .vnull := by
  cases x <;> simp [isNilB]

theorem deepEqual_vnull_left {g : GoValue} (h : deepEqual .vnull g = true) :
    g = .vnull := by
  cases g <;> simp [deepEqual] at h ⊢

/-- The fallback of `UpdateObject` (same statement as the update conjunct of
C9, kept as a shared helper). -/
theorem update_non_special (old new : GoValue) (option : UpdateJsonOption)
    (h1 : (isObjB old && isObjB new) = false) (h2 : (isArrB old && isArrB new) = false)
    (h3 : (isStrB old && isStrB new) = false) : UpdateObject old new option = new := by
  cases old <;> cases new <;>
    simp_all [UpdateObject, deepEqual, isObjB, isArrB, isStrB]

/-- On two strings, `UpdateObject` returns either the old or the new
string. -/
theorem upd_str (s t : String) (option : UpdateJsonOption) :
    UpdateObject (.vstr s) (.vstr t) option = .vstr s ∨
      UpdateObject (.vstr s) (.vstr t) option = .vstr t := by
  by_cases hde : deepEqual (.vstr s) (.vstr t) = true
  · left
    rw [UpdateObject.eq_def, if_pos hde]
  · by_cases h1 : (option.IgnoreCasing && equalFold s t) = true
    · left
      rw [UpdateObject.eq_def, if_neg hde]
      show (if (option.IgnoreCasing && equalFold s t) = true then GoValue.vstr s
          else if (option.IgnoreMissingProperty && isRedactedOrEmpty t) = true
            then GoValue.vstr s else GoValue.vstr t) = GoValue.vstr s
      rw [if_pos h1]
    · by_cases h2 : (option.IgnoreMissingProperty && isRedactedOrEmpty t) = true
      · left
        rw [UpdateObject.eq_def, if_neg hde]
        show (if (option.IgnoreCasing && equalFold s t) = true then GoValue.vstr s
            else if (option.IgnoreMissingProperty && isRedactedOrEmpty t) = true
              then GoValue.vstr s else GoValue.vstr t) = GoValue.vstr s
        rw [if_neg h1, if_pos h2]
      · right
        rw [UpdateObject.eq_def, if_neg hde]
        show (if (option.IgnoreCasing && equalFold s t) = true then GoValue.vstr s
            else if (option.IgnoreMissingProperty && isRedactedOrEmpty t) = true
              then GoValue.vstr s else GoValue.vstr t) = GoValue.vstr t
        rw [if_neg h1, if_neg h2]

/-- Shape analysis of one `UpdateObject` call: the result is computed by the
object case, the array case, or equals old or new outright. -/
theorem upd_shape (old new : GoValue) (option : UpdateJsonOption) :
    (∃ fs n, old = .vobj fs ∧ new = .vobj n) ∨
      (∃ xs ns, old = .varr xs ∧ new = .varr ns) ∨
      UpdateObject old new option = old ∨ UpdateObject old new option = new := by
  by_cases hde : deepEqual old new = true
  · right; right; left
    rw [UpdateObject.eq_def, if_pos hde]
  · cases old with
    | vobj fs =>
        cases new with
        | vobj n => exact Or.inl ⟨fs, n, rfl, rfl⟩
        | vnull => right; right; right
                   exact update_non_special _ _ _ (by simp [isObjB]) (by simp [isArrB])
                     (by simp [isStrB])
        | vbool b => right; right; right
                     exact update_non_special _ _ _ (by simp [isObjB]) (by simp [isArrB])
                       (by simp [isStrB])
        | vnum q => right; right; right
                    exact update_non_special _ _ _ (by simp [isObjB]) (by simp [isArrB])
                      (by simp [isStrB])
        | vstr t => right; right; right
                    exact update_non_special _ _ _ (by simp [isObjB]) (by simp [isArrB])
                      (by simp [isStrB])
        | varr ns => right; right; right
                     exact update_non_special _ _ _ (by simp [isObjB]) (by simp [isArrB])
                       (by simp [isStrB])
    | varr xs =>
        cases new with
        | varr ns => exact Or.inr (Or.inl ⟨xs, ns, rfl, rfl⟩)
        | vnull => right; right; right
                   exact update_non_special _ _ _ (by simp [isObjB]) (by simp [isArrB])
                     (by simp [isStrB])
        | vbool b => right; right; right
                     exact update_non_special _ _ _ (by simp [isObjB]) (by simp [isArrB])
                       (by simp [isStrB])
        | vnum q => right; right; right
                    exact update_non_special _ _ _ (by simp [isObjB]) (by simp [isArrB])
                      (by simp [isStrB])
        | vstr t => right; right; right
                    exact update_non_special _ _ _ (by simp [isObjB]) (by simp [isArrB])
                      (by simp [isStrB])
        | vobj n => right; right; right
                    exact update_non_special _ _ _ (by simp [isObjB]) (by simp [isArrB])
                      (by simp [isStrB])
    | vstr s =>
        cases new with
        | vstr t =>
            rcases upd_str s t option with h | h
            · exact Or.inr (Or.inr (Or.inl h))
            · exact Or.inr (Or.inr (Or.inr h))
        | vnull => right; right; right
                   exact update_non_special _ _ _ (by simp [isObjB]) (by simp [isArrB])
                     (by simp [isStrB])
        | vbool b => right; right; right
                     exact update_non_special _ _ _ (by simp [isObjB]) (by simp [isArrB])
                       (by simp [isStrB])
        | vnum q => right; right; right
                    exact update_non_special _ _ _ (by simp [isObjB]) (by simp [isArrB])
                      (by simp [isStrB])
        | varr ns => right; right; right
                     exact update_non_special _ _ _ (by simp [isObjB]) (by simp [isArrB])
                       (by simp [isStrB])
        | vobj n => right; right; right
                    exact update_non_special _ _ _ (by simp [isObjB]) (by simp [isArrB])
                      (by simp [isStrB])
    | vnull => right; right; right
               exact update_non_special _ _ _ (by simp [isObjB]) (by simp [isArrB])
                 (by simp [isStrB])
    | vbool b => right; right; right
                 exact update_non_special _ _ _ (by simp [isObjB]) (by simp [isArrB])
                   (by simp [isStrB])
    | vnum q => right; right; right
                exact update_non_special _ _ _ (by simp [isObjB]) (by simp [isArrB])
                  (by simp [isStrB])

theorem noNameKey_obj {o : GoValue} (h : noNameKey o = true) :
    ∃ fs, o = .vobj fs ∧ mapMemB fs "name" = false := by
  cases o with
  | vobj fs =>
      refine ⟨fs, rfl, ?_⟩
      simpa [noNameKey] using h
  | vnull => simp [noNameKey] at h
  | vbool b => simp [noNameKey] at h
  | vnum q => simp [noNameKey] at h
  | vstr t => simp [noNameKey] at h
  | varr xs => simp [noNameKey] at h

theorem noNameKey_id {o : GoValue} (h : noNameKey o = true) :
    identifierOfArrayItem o = "" := by
  obtain ⟨fs, rfl, hm⟩ := noNameKey_obj h
  rw [identifierOfArrayItem, mapGet_eq_of_not_mem hm]

/-- Updating an object without a `name` key never produces an array-item
identifier (the result keeps a subset of the keys, or is new's non-object
value). -/
theorem id_of_update_noName {o : GoValue} (n : GoValue) (option : UpdateJsonOption)
    (h : noNameKey o = true) :
    identifierOfArrayItem (UpdateObject o n option) = "" := by
  obtain ⟨fs, rfl, hm⟩ := noNameKey_obj h
  by_cases hde : deepEqual (.vobj fs) n = true
  · rw [UpdateObject.eq_def, if_pos hde, identifierOfArrayItem,
      mapGet_eq_of_not_mem hm]
  · rw [UpdateObject.eq_def, if_neg hde]
    cases n with
    | vobj nf =>
        show identifierOfArrayItem (.vobj (updateFields fs nf option)) = ""
        have hm2 : mapMemB (updateFields fs nf option) "name" = false := by
          by_contra hx
          have hx' : mapMemB (updateFields fs nf option) "name" = true := by
            simpa using hx
          have := updateFields_keys_sub (mapMemB_iff_mem_keys.mp hx')
          rw [mapMemB_iff_mem_keys.mpr this] at hm
          exact Bool.true_eq_false.mp hm
        rw [identifierOfArrayItem, mapGet_eq_of_not_mem hm2]
    | vnull => rfl
    | vbool b => rfl
    | vnum q => rfl
    | vstr t => rfl
    | varr x => rfl

theorem updatePositional_length (os ns : List GoValue) (option : UpdateJsonOption) :
    (updatePositional os ns option).length = min os.length ns.length := by
  rw [updatePositional_eq_zipWith, List.length_zipWith]

theorem upd_old_fix {old new : GoValue} {option : UpdateJsonOption}
    (h1 : UpdateObject old new option = old) :
    UpdateObject (UpdateObject old new option) new option
      = UpdateObject old new option := by
  rw [h1]
  exact h1

theorem upd_new_fix {old new : GoValue} {option : UpdateJsonOption}
    (hwf : wfGo new = true) (h1 : UpdateObject old new option = new) :
    UpdateObject (UpdateObject old new option) new option
      = UpdateObject old new option := by
  rw [h1, UpdateObject.eq_def, if_pos (deepEqual_refl new hwf)]

mutual
/-- One application of `UpdateObject` reaches a fixed point of further
applications with the same new value and policy, provided new is
well-formed and old is identifier-free. -/
theorem updObjIdem : ∀ (old new : GoValue) (option : UpdateJsonOption),
    wfGo new = true → idFree old = true →
    UpdateObject (UpdateObject old new option) new option
      = UpdateObject old new option
  | .vnull, new, option, hwf, _ =>
      upd_new_fix hwf (update_non_special _ _ _ (by simp [isObjB]) (by simp [isArrB])
        (by simp [isStrB]))
  | .vbool b, new, option, hwf, _ =>
      upd_new_fix hwf (update_non_special _ _ _ (by simp [isObjB]) (by simp [isArrB])
        (by simp [isStrB]))
  | .vnum q, new, option, hwf, _ =>
      upd_new_fix hwf (update_non_special _ _ _ (by simp [isObjB]) (by simp [isArrB])
        (by simp [isStrB]))
  | .vstr s, new, option, hwf, _ => by
      cases new with
      | vstr t =>
          rcases upd_str s t option with h | h
          · exact upd_old_fix h
          · exact upd_new_fix hwf h
      | vnull => exact upd_new_fix hwf (update_non_special _ _ _ (by simp [isObjB])
                   (by simp [isArrB]) (by simp [isStrB]))
      | vbool b => exact upd_new_fix hwf (update_non_special _ _ _ (by simp [isObjB])
                     (by simp [isArrB]) (by simp [isStrB]))
      | vnum q => exact upd_new_fix hwf (update_non_special _ _ _ (by simp [isObjB])
                    (by simp [isArrB]) (by simp [isStrB]))
      | varr ns => exact upd_new_fix hwf (update_non_special _ _ _ (by simp [isObjB])
                     (by simp [isArrB]) (by simp [isStrB]))
      | vobj n => exact upd_new_fix hwf (update_non_special _ _ _ (by simp [isObjB])
                    (by simp [isArrB]) (by simp [isStrB]))
  | .vobj fs, new, option, hwf, hidf => by
      cases new with
      | vobj n =>
          by_cases hde : deepEqual (.vobj fs) (.vobj n) = true
          · exact upd_old_fix (by rw [UpdateObject.eq_def, if_pos hde])
          · have h1 : UpdateObject (.vobj fs) (.vobj n) option
                = .vobj (updateFields fs n option) := by
              rw [UpdateObject.eq_def, if_neg hde]
            rw [h1]
            by_cases hde2 :
                deepEqual (.vobj (updateFields fs n option)) (.vobj n) = true
            · rw [UpdateObject.eq_def, if_pos hde2]
            · have h2 : UpdateObject (.vobj (updateFields fs n option)) (.vobj n) option
                  = .vobj (updateFields (updateFields fs n option) n option) := by
                rw [UpdateObject.eq_def, if_neg hde2]
              have hw : wfGoFields n = true := by
                have := hwf
                simp only [wfGo, Bool.and_eq_true] at this
                exact this.2
              have hf : idFreeFields fs = true := by simpa [idFree] using hidf
              rw [h2, updateFieldsIdem fs n option hw hf]
      | vnull => exact upd_new_fix hwf (update_non_special _ _ _ (by simp [isObjB])
                   (by simp [isArrB]) (by simp [isStrB]))
      | vbool b => exact upd_new_fix hwf (update_non_special _ _ _ (by simp [isObjB])
                     (by simp [isArrB]) (by simp [isStrB]))
      | vnum q => exact upd_new_fix hwf (update_non_special _ _ _ (by simp [isObjB])
                    (by simp [isArrB]) (by simp [isStrB]))
      | vstr t => exact upd_new_fix hwf (update_non_special _ _ _ (by simp [isObjB])
                    (by simp [isArrB]) (by simp [isStrB]))
      | varr ns => exact upd_new_fix hwf (update_non_special _ _ _ (by simp [isObjB])
                     (by simp [isArrB]) (by simp [isStrB]))
  | .varr xs, new, option, hwf, hidf => by
      cases new with
      | varr ns =>
          by_cases hde : deepEqual (.varr xs) (.varr ns) = true
          · exact upd_old_fix (by rw [UpdateObject.eq_def, if_pos hde])
          · cases xs with
            | nil =>
                exact upd_new_fix hwf (by rw [UpdateObject.eq_def, if_neg hde])
            | cons o os =>
                obtain ⟨hnn, hil⟩ :
                    noNameKey o = true ∧ idFreeList (o :: os) = true := by
                  simpa [idFree] using hidf
                have hid : identifierOfArrayItem o = "" := noNameKey_id hnn
                by_cases hlen : (o :: os).length ≠ ns.length
                · refine upd_new_fix hwf ?_
                  rw [UpdateObject.eq_def, if_neg hde]
                  show (if identifierOfArrayItem o = "" then
                      if (o :: os).length ≠ ns.length then GoValue.varr ns
                      else GoValue.varr (updatePositional (o :: os) ns option)
                    else
                      GoValue.varr
                        ((updateMatchLoop (o :: os) ns (List.replicate ns.length false)
                            option).1 ++
                          appendUnused ns
                            (updateMatchLoop (o :: os) ns (List.replicate ns.length false)
                              option).2)) = GoValue.varr ns
                  rw [if_pos hid, if_pos hlen]
                · have hlen' : (o :: os).length = ns.length := not_not.mp hlen
                  have h1 : UpdateObject (.varr (o :: os)) (.varr ns) option
                      = .varr (updatePositional (o :: os) ns option) := by
                    rw [UpdateObject.eq_def, if_neg hde]
                    show (if identifierOfArrayItem o = "" then
                        if (o :: os).length ≠ ns.length then GoValue.varr ns
                        else GoValue.varr (updatePositional (o :: os) ns option)
                      else
                        GoValue.varr
                          ((updateMatchLoop (o :: os) ns (List.replicate ns.length false)
                              option).1 ++
                            appendUnused ns
                              (updateMatchLoop (o :: os) ns
                                (List.replicate ns.length false) option).2)) =
                      GoValue.varr (updatePositional (o :: os) ns option)
                    rw [if_pos hid, if_neg hlen]
                  rw [h1]
                  cases ns with
                  | nil => simp at hlen'
                  | cons n0 ns' =>
                      have hwl : wfGoList (n0 :: ns') = true := by
                        simpa [wfGo] using hwf
                      have hoslen : os.length = ns'.length := by simpa using hlen'
                      have hres : updatePositional (o :: os) (n0 :: ns') option
                          = UpdateObject o n0 option :: updatePositional os ns' option := by
                        rw [updatePositional]
                      rw [hres]
                      by_cases hde2 :
                          deepEqual
                            (.varr (UpdateObject o n0 option ::
                              updatePositional os ns' option)) (.varr (n0 :: ns')) = true
                      · rw [UpdateObject.eq_def, if_pos hde2]
                      · have hid2 : identifierOfArrayItem (UpdateObject o n0 option) = "" :=
                          id_of_update_noName n0 option hnn
                        have hlen2 :
                            ¬((UpdateObject o n0 option ::
                                updatePositional os ns' option).length ≠
                              (n0 :: ns').length) := by
                          simp [updatePositional_length, hoslen]
                        rw [UpdateObject.eq_def, if_neg hde2]
                        show (if identifierOfArrayItem (UpdateObject o n0 option) = "" then
                            if (UpdateObject o n0 option ::
                                updatePositional os ns' option).length ≠
                                (n0 :: ns').length then GoValue.varr (n0 :: ns')
                            else
                              GoValue.varr
                                (updatePositional
                                  (UpdateObject o n0 option ::
                                    updatePositional os ns' option) (n0 :: ns') option)
                          else
                            GoValue.varr
                              ((updateMatchLoop
                                  (UpdateObject o n0 option ::
                                    updatePositional os ns' option) (n0 :: ns')
                                  (List.replicate (n0 :: ns').length false) option).1 ++
                                appendUnused (n0 :: ns')
                                  (updateMatchLoop
                                    (UpdateObject o n0 option ::
                                      updatePositional os ns' option) (n0 :: ns')
                                    (List.replicate (n0 :: ns').length false) option).2)) =
                          GoValue.varr (UpdateObject o n0 option ::
                            updatePositional os ns' option)
                        rw [if_pos hid2, if_neg hlen2, ← hres,
                          updatePositionalIdem (o :: os) (n0 :: ns') option hwl hil]
      | vnull => exact upd_new_fix hwf (update_non_special _ _ _ (by simp [isObjB])
                   (by simp [isArrB]) (by simp [isStrB]))
      | vbool b => exact upd_new_fix hwf (update_non_special _ _ _ (by simp [isObjB])
                     (by simp [isArrB]) (by simp [isStrB]))
      | vnum q => exact upd_new_fix hwf (update_non_special _ _ _ (by simp [isObjB])
                    (by simp [isArrB]) (by simp [isStrB]))
      | vstr t => exact upd_new_fix hwf (update_non_special _ _ _ (by simp [isObjB])
                    (by simp [isArrB]) (by simp [isStrB]))
      | vobj n => exact upd_new_fix hwf (update_non_special _ _ _ (by simp [isObjB])
                    (by simp [isArrB]) (by simp [isStrB]))
termination_by structural old => old

theorem updateFieldsIdem : ∀ (fs n : GoFields) (option : UpdateJsonOption),
    wfGoFields n = true → idFreeFields fs = true →
    updateFields (updateFields fs n option) n option = updateFields fs n option
  | [], n, option, hw, hf => by simp [updateFields]
  | (key, value) :: rest, n, option, hw, hf => by
      obtain ⟨hfv, hfr⟩ : idFree value = true ∧ idFreeFields rest = true := by
        simpa [idFreeFields] using hf
      rw [updateFields]
      by_cases hb1 : (isNilB value && option.IgnoreNullProperty) = true
      · rw [if_pos hb1]
        obtain ⟨hnilv, hINP⟩ :
            isNilB value = true ∧ option.IgnoreNullProperty = true := by simpa using hb1
        rw [updateFields]
        have hb1' : (isNilB GoValue.vnull && option.IgnoreNullProperty) = true := by
          simp [isNilB, hINP]
        rw [if_pos hb1', updateFieldsIdem rest n option hw hfr]
      · rw [if_neg hb1]
        by_cases hb2 : (!isNilB (mapGet n key)) = true
        · rw [if_pos hb2]
          rw [updateFields]
          by_cases hb1' :
              (isNilB (UpdateObject value (mapGet n key) option) &&
                option.IgnoreNullProperty) = true
          · rw [if_pos hb1']
            obtain ⟨hnil2, hINP⟩ :
                isNilB (UpdateObject value (mapGet n key) option) = true ∧
                  option.IgnoreNullProperty = true := by simpa using hb1'
            rw [updateFieldsIdem rest n option hw hfr, isNilB_true_iff.mp hnil2]
          · rw [if_neg hb1', if_pos hb2,
              updateFieldsIdem rest n option hw hfr,
              updObjIdem value (mapGet n key) option (wfGo_mapGet hw key) hfv]
        · rw [if_neg hb2]
          by_cases hb3 : (option.IgnoreMissingProperty || isZeroValue value) = true
          · rw [if_pos hb3]
            rw [updateFields]
            rw [if_neg hb1, if_neg hb2, if_pos hb3,
              updateFieldsIdem rest n option hw hfr]
          · rw [if_neg hb3]
            exact updateFieldsIdem rest n option hw hfr
termination_by structural fs => fs

theorem updatePositionalIdem : ∀ (os ns : List GoValue) (option : UpdateJsonOption),
    wfGoList ns = true → idFreeList os = true →
    updatePositional (updatePositional os ns option) ns option
      = updatePositional os ns option
  | [], ns, option, hw, hf => by simp [updatePositional]
  | o :: os, ns, option, hw, hf => by
      cases ns with
      | nil => simp [updatePositional]
      | cons n0 ns' =>
          obtain ⟨hw0, hw'⟩ : wfGo n0 = true ∧ wfGoList ns' = true := by
            simpa [wfGoList] using hw
          obtain ⟨hf0, hf'⟩ : idFree o = true ∧ idFreeList os = true := by
            simpa [idFreeList] using hf
          rw [updatePositional]
          rw [updatePositional]
          rw [updObjIdem o n0 option hw0 hf0,
            updatePositionalIdem os ns' option hw' hf']
termination_by structural os => os
end

/-- C3, counterexample: `UpdateObject` is not idempotent.  With
IgnoreMissingProperty and identifier matching, the first application
matches old[0] to new[0] and old[1] to new[1] by identifier; its result's
first element then exactly equals new[1], so the second application's
greedy exact-match pass steals new[1] for element 0 and re-updates element
1 against new[0], changing x from 7 to 8.  Both results are computed in
full; they are well-formed and not deeply equal. -/
theorem claim_C3_counterexample :
    UpdateObject
        (.varr [.vobj [("name", .vstr "n"), ("w", .vnum 3), ("a", .vnum 1)],
                .vobj [("name", .vstr "n"), ("w", .vnum 5), ("a", .vnum 1),
                       ("x", .vnum 7)]])
        (.varr [.vobj [("name", .vstr "n"), ("a", .vnum 9), ("x", .vnum 8)],
                .vobj [("name", .vstr "n"), ("w", .vnum 3), ("a", .vnum 9)]])
        ⟨false, true, false⟩ =
      .varr [.vobj [("name", .vstr "n"), ("w", .vnum 3), ("a", .vnum 9)],
             .vobj [("name", .vstr "n"), ("w", .vnum 3), ("a", .vnum 9),
                    ("x", .vnum 7)]] ∧
    UpdateObject
        (.varr [.vobj [("name", .vstr "n"), ("w", .vnum 3), ("a", .vnum 9)],
                .vobj [("name", .vstr "n"), ("w", .vnum 3), ("a", .vnum 9),
                       ("x", .vnum 7)]])
        (.varr [.vobj [("name", .vstr "n"), ("a", .vnum 9), ("x", .vnum 8)],
                .vobj [("name", .vstr "n"), ("w", .vnum 3), ("a", .vnum 9)]])
        ⟨false, true, false⟩ =
      .varr [.vobj [("name", .vstr "n"), ("w", .vnum 3), ("a", .vnum 9)],
             .vobj [("name", .vstr "n"), ("w", .vnum 3), ("a", .vnum 9),
                    ("x", .vnum 8)]] ∧
    deepEqual
        (.varr [.vobj [("name", .vstr "n"), ("w", .vnum 3), ("a", .vnum 9)],
                .vobj [("name", .vstr "n"), ("w", .vnum 3), ("a", .vnum 9),
                       ("x", .vnum 8)]])
        (.varr [.vobj [("name", .vstr "n"), ("w", .vnum 3), ("a", .vnum 9)],
                .vobj [("name", .vstr "n"), ("w", .vnum 3), ("a", .vnum 9),
                       ("x", .vnum 7)]]) = false := by
  refine ⟨by with_unfolding_all rfl, by with_unfolding_all rfl, by decide⟩

/-- C3 (amended): update idempotence
`UpdateObject (UpdateObject old new option) new option = UpdateObject old new option`
holds whenever new is well-formed (duplicate-free keys at every level, as
`json.Unmarshal` guarantees) and old is identifier-free: every non-empty
array at any depth of old starts with an object carrying no `name` key, so
the updater always takes the positional or wholesale array path and never
the (non-idempotent) greedy identifier-matching path. -/
theorem claim_C3_update_idempotence_amended (old new : GoValue)
    (option : UpdateJsonOption) (hwf : wfGo new = true) (hidf : idFree old = true) :
    UpdateObject (UpdateObject old new option) new option
      = UpdateObject old new option :=
  updObjIdem old new option hwf hidf

theorem claim_C3_witness :
    wfGo (.varr [.vobj [("a", .vnum 1), ("s", .vstr "u")], .vnum 5]) = true ∧
    idFree (.varr [.vobj [("a", .vnum 2), ("b", .vbool true)], .vnum 4]) = true ∧
    UpdateObject
        (UpdateObject (.varr [.vobj [("a", .vnum 2), ("b", .vbool true)], .vnum 4])
          (.varr [.vobj [("a", .vnum 1), ("s", .vstr "u")], .vnum 5])
          ⟨false, true, false⟩)
        (.varr [.vobj [("a", .vnum 1), ("s", .vstr "u")], .vnum 5])
        ⟨false, true, false⟩
      = UpdateObject (.varr [.vobj [("a", .vnum 2), ("b", .vbool true)], .vnum 4])
          (.varr [.vobj [("a", .vnum 1), ("s", .vstr "u")], .vnum 5])
          ⟨false, true, false⟩ :=
  ⟨by decide, by decide,
    claim_C3_update_idempotence_amended _ _ _ (by decide) (by decide)⟩
